import Mathlib

/-!
Verification of the tensor reshape rewrite patterns
(`mlir/lib/Dialect/Tensor/Transforms/ReshapePatterns.cpp`).

The file has two layers:
* an operation-level embedding of the five rewrite rules, faithful to the
  pattern code (match conditions, constructed replacement operations,
  rewriter-call traces);
* a semantic layer of concrete tensor values with row-major indexing, used
  to prove that each rewrite preserves the element-wise function computed.
-/

set_option maxHeartbeats 1000000

namespace ReshapePatterns

/-- A tensor dimension extent: a known static size or a dynamic (unknown) one. -/
inductive Dim : Type where
  | static (n : Nat) : Dim
  | dynamic : Dim
deriving DecidableEq

/-- A ranked tensor type: a shape (list of dimension extents) and an element
type, identified by a numeric code. -/
structure RTT : Type where
  shape : List Dim
  elem : Nat
deriving DecidableEq

/-- A mixed offset, size or stride entry (`OpFoldResult`): a static integer
attribute or an SSA value identified by a numeric id. -/
inductive OFR : Type where
  | static (n : Nat) : OFR
  | value (id : Nat) : OFR
deriving DecidableEq

/-- Project a mixed entry to its static form; SSA values become dynamic. -/
def ofrToDim : OFR → Dim
  | OFR.static n => Dim.static n
  | OFR.value _ => Dim.dynamic

/-- An SSA value together with (one recursive level of) its producing
operation, its ranked tensor type and its use count. -/
inductive Value : Type where
  | fromElsewhere (type : RTT) (uses : Nat) : Value
  | extractSliceV (source : Value) (offsets sizes strides : List OFR)
      (type : RTT) (uses : Nat) : Value
  | collapseShapeV (source : Value) (reassociation : List (List Nat))
      (type : RTT) (uses : Nat) : Value
  | expandShapeV (source : Value) (reassociation : List (List Nat))
      (outputShape : List OFR) (type : RTT) (uses : Nat) : Value
deriving DecidableEq

def Value.type : Value → RTT
  | Value.fromElsewhere t _ => t
  | Value.extractSliceV _ _ _ _ t _ => t
  | Value.collapseShapeV _ _ t _ => t
  | Value.expandShapeV _ _ _ t _ => t

def Value.uses : Value → Nat
  | Value.fromElsewhere _ u => u
  | Value.extractSliceV _ _ _ _ _ u => u
  | Value.collapseShapeV _ _ _ u => u
  | Value.expandShapeV _ _ _ _ u => u

/-- `tensor.extract_slice`, as matched / constructed by the patterns. -/
structure ExtractSliceOp : Type where
  source : Value
  offsets : List OFR
  sizes : List OFR
  strides : List OFR
  resultType : RTT
deriving DecidableEq

/-- `tensor.collapse_shape`. -/
structure CollapseShapeOp : Type where
  src : Value
  reassociation : List (List Nat)
  resultType : RTT
deriving DecidableEq

/-- `tensor.expand_shape`. -/
structure ExpandShapeOp : Type where
  src : Value
  reassociation : List (List Nat)
  outputShape : List OFR
  resultType : RTT
deriving DecidableEq

/-- The two insert-like operation kinds the insert patterns are instantiated
at (`tensor.insert_slice` and `tensor.parallel_insert_slice`). -/
inductive InsertKind : Type where
  | insertSlice : InsertKind
  | parallelInsertSlice : InsertKind
deriving DecidableEq

/-- An insert-like operation; its result type is its destination's type. -/
structure InsertSliceOp : Type where
  kind : InsertKind
  source : Value
  dest : Value
  offsets : List OFR
  sizes : List OFR
  strides : List OFR
deriving DecidableEq

def InsertSliceOp.destType (i : InsertSliceOp) : RTT := i.dest.type

def getDefiningExtractSlice : Value → Option ExtractSliceOp
  | Value.extractSliceV s o z st t _ => some ⟨s, o, z, st, t⟩
  | _ => none

def getDefiningCollapseShape : Value → Option CollapseShapeOp
  | Value.collapseShapeV s re t _ => some ⟨s, re, t⟩
  | _ => none

def getDefiningExpandShape : Value → Option ExpandShapeOp
  | Value.expandShapeV s re oshape t _ => some ⟨s, re, oshape, t⟩
  | _ => none

/-- Diagnostic reasons passed to `notifyMatchFailure` in the file. -/
inductive MatchDiag : Type where
  | expectedUnpaddingCollapse : MatchDiag
  | expectedRankIncreasingExpansion : MatchDiag
deriving DecidableEq

/-- One call a pattern makes into the rewriter. -/
inductive RAction : Type where
  | createOp : RAction
  | replaceOp : RAction
  | modifyInPlace : RAction
  | notifyMatchFailure (d : MatchDiag) : RAction
deriving DecidableEq

/-- Whether a rewriter call mutates the operation graph (diagnostics do not). -/
def RAction.isMutation : RAction → Bool
  | RAction.createOp => true
  | RAction.replaceOp => true
  | RAction.modifyInPlace => true
  | RAction.notifyMatchFailure _ => false

/-- Modelled from the spec: `ExtractSliceOp::inferResultType` (declared outside
this repository's sources) — per spec sections 3 and 4.1, the non-reducing
slice type has one dimension per offset/size/stride triple, of extent the
(possibly dynamic) size, with the source tensor's element type. -/
def ExtractSliceOp.inferResultType (sourceType : RTT)
    (_staticOffsets staticSizes _staticStrides : List Dim) : RTT :=
  ⟨staticSizes, sourceType.elem⟩

/-- Modelled from the spec: `computeRankReductionMask` (declared outside this
repository's sources) — the greedy scan that decides whether the reduced shape
is the original shape with some dimensions deleted, every deleted dimension of
static size 1 (spec sections 4.2 and 4.4, glossary "rank-reducing").  Returns
the keep-mask over the original shape (`false` = deleted). -/
def computeRankReductionMask : List Dim → List Dim → Option (List Bool)
  | [], [] => some []
  | [], _ :: _ => none
  | d :: ds, [] =>
      if d = Dim.static 1 then (computeRankReductionMask ds []).map (false :: ·)
      else none
  | d :: ds, r :: rs =>
      if d = r then (computeRankReductionMask ds rs).map (true :: ·)
      else if d = Dim.static 1 then
        (computeRankReductionMask ds (r :: rs)).map (false :: ·)
      else none

/-- Modelled from the spec: `isRankReducedType` — success exactly when the
candidate reduced type drops only static size-1 dimensions from the original
type and both share an element type. -/
def isRankReducedType (original candidate : RTT) : Bool :=
  (computeRankReductionMask original.shape candidate.shape).isSome
    && decide (original.elem = candidate.elem)

/-- Rule 4.1, `FoldExpandOfRankReducingExtract::matchAndRewrite`:
fold `expand_shape(extract_slice)` pairs that cancel out.  Returns the trace
of rewriter calls together with the replacement op on success. -/
def FoldExpandOfRankReducingExtract (expandShapeOp : ExpandShapeOp) :
    List RAction × Option ExtractSliceOp :=
  let resultType := expandShapeOp.resultType
  match getDefiningExtractSlice expandShapeOp.src with
  | none => ([], none)
  | some extractSliceOp =>
    let srcType := extractSliceOp.source.type
    let nonReducingExtractType := ExtractSliceOp.inferResultType srcType
      (extractSliceOp.offsets.map ofrToDim) (extractSliceOp.sizes.map ofrToDim)
      (extractSliceOp.strides.map ofrToDim)
    if nonReducingExtractType ≠ resultType then ([], none)
    else
      ([RAction.createOp, RAction.replaceOp],
       some ⟨extractSliceOp.source, extractSliceOp.offsets, extractSliceOp.sizes,
             extractSliceOp.strides, nonReducingExtractType⟩)

/-- Rule 4.2, `FoldUnPaddingCollapseIntoExtract::matchAndRewrite`:
fold a collapse that only removes static size-1 dimensions into the producing
`extract_slice` (which must have exactly one use). -/
def FoldUnPaddingCollapseIntoExtract (collapseShapeOp : CollapseShapeOp) :
    List RAction × Option ExtractSliceOp :=
  match getDefiningExtractSlice collapseShapeOp.src with
  | none => ([], none)
  | some extractSliceOp =>
    if collapseShapeOp.src.uses ≠ 1 then ([], none)
    else if ¬ (isRankReducedType collapseShapeOp.src.type collapseShapeOp.resultType) then
      ([RAction.notifyMatchFailure MatchDiag.expectedUnpaddingCollapse], none)
    else
      ([RAction.createOp, RAction.replaceOp],
       some ⟨extractSliceOp.source, extractSliceOp.offsets, extractSliceOp.sizes,
             extractSliceOp.strides, collapseShapeOp.resultType⟩)

/-- Rule 4.3, `FoldInsertOfRankReducingInsert<OpTy>::matchAndRewrite`
(instantiated at both insert kinds): fold `insert(collapse_shape)` pairs that
cancel out.  The operation-kind template parameter is the extra argument,
unused by the algorithm just as the C++ template body never branches on it. -/
def FoldInsertOfRankReducingInsert (_opTy : InsertKind)
    (insertSliceOp : InsertSliceOp) : List RAction × Option InsertSliceOp :=
  match getDefiningCollapseShape insertSliceOp.source with
  | none => ([], none)
  | some collapseShapeOp =>
    let srcType := collapseShapeOp.src.type
    let nonReducingInsertType : RTT :=
      ⟨insertSliceOp.sizes.map ofrToDim, insertSliceOp.dest.type.elem⟩
    if nonReducingInsertType ≠ srcType then ([], none)
    else
      ([RAction.createOp, RAction.replaceOp],
       some ⟨insertSliceOp.kind, collapseShapeOp.src, insertSliceOp.dest,
             insertSliceOp.offsets, insertSliceOp.sizes, insertSliceOp.strides⟩)

/-- Rule 4.4, `FoldPaddingExpandIntoInsert<OpTy>::matchAndRewrite`
(instantiated at both insert kinds): fold an expand that only adds static
size-1 dimensions into the insert, by mutating the insert's source in place. -/
def FoldPaddingExpandIntoInsert (_opTy : InsertKind)
    (insertSliceOp : InsertSliceOp) : List RAction × Option InsertSliceOp :=
  match getDefiningExpandShape insertSliceOp.source with
  | none => ([], none)
  | some expandShapeOp =>
    if ¬ (isRankReducedType expandShapeOp.resultType expandShapeOp.src.type) then
      ([RAction.notifyMatchFailure MatchDiag.expectedRankIncreasingExpansion], none)
    else
      ([RAction.modifyInPlace],
       some { insertSliceOp with source := expandShapeOp.src })

/-- Modelled from the spec: `tensor::getMixedSizes` (declared outside this
repository's sources) — the mixed sizes of a value are its type's dimensions,
a static attribute per static dimension and a freshly created dimension-query
SSA value per dynamic one. -/
def getMixedSizes (shape : List Dim) : List OFR :=
  shape.enum.map (fun p =>
    match p.2 with
    | Dim.static n => OFR.static n
    | Dim.dynamic => OFR.value p.1)

/-- The per-position loop of `BubbleUpExpandThroughParallelCollapse`: walks the
collapse's reassociation groups (with the expand's groups alongside) carrying
the running intermediate dimension index and the not yet consumed collapse /
expand sizes, and builds the new expand and collapse reassociations and the
intermediate sizes. -/
def bubbleLoop {σ : Type} :
    List (List Nat) → List (List Nat) → List σ → List σ → Nat →
      List (List Nat) × List (List Nat) × List σ
  | [], _, _, _, _ => ([], [], [])
  | c :: cRest, eReL, cSizes, eSizes, index =>
    if c.length ≠ 1 then
      let m := c.length
      let r := bubbleLoop cRest (eReL.drop 1) (cSizes.drop m) (eSizes.drop 1) (index + m)
      ((List.range' index m).map (fun i => [i]) ++ r.1,
       List.range' index m :: r.2.1,
       cSizes.take m ++ r.2.2)
    else
      let k := (eReL.headD []).length
      let r := bubbleLoop cRest (eReL.drop 1) (cSizes.drop 1) (eSizes.drop k) (index + k)
      (List.range' index k :: r.1,
       (List.range' index k).map (fun i => [i]) ++ r.2.1,
       eSizes.take k ++ r.2.2)

/-- Dimension-extent product with dynamic absorbing, as used when inferring a
collapsed type. -/
def dimMul : Dim → Dim → Dim
  | Dim.static a, Dim.static b => Dim.static (a * b)
  | _, _ => Dim.dynamic

def dimProd (l : List Dim) : Dim := l.foldr dimMul (Dim.static 1)

/-- Modelled from the spec: `CollapseShapeOp::inferCollapsedType` (declared
outside this repository's sources) — per spec section 3, each reassociation
group of source dimensions becomes one result dimension whose extent is the
product of the group's extents, dynamic as soon as any member is dynamic. -/
def inferCollapsedType (t : RTT) (re : List (List Nat)) : RTT :=
  ⟨re.map (fun g => dimProd (g.map (fun i => t.shape.getD i (Dim.static 1)))), t.elem⟩

/-- Rule 4.5, `BubbleUpExpandThroughParallelCollapse::matchAndRewrite`:
reorder `expand_shape(collapse_shape)` into `collapse_shape(expand_shape)`
when the two reassociations are parallel. -/
def BubbleUpExpandThroughParallelCollapse (expandOp : ExpandShapeOp) :
    List RAction × Option (ExpandShapeOp × CollapseShapeOp) :=
  match getDefiningCollapseShape expandOp.src with
  | none => ([], none)
  | some collapseOp =>
    let expandReInds := expandOp.reassociation
    let collapseReInds := collapseOp.reassociation
    if (expandReInds.zip collapseReInds).any
        (fun p => decide (p.2.length ≠ 1) && decide (p.1.length ≠ 1)) then
      ([], none)
    else
      let collapseSizes := getMixedSizes collapseOp.src.type.shape
      let expandSizes := expandOp.outputShape
      let r := bubbleLoop collapseReInds expandReInds collapseSizes expandSizes 0
      let newExpandReInds := r.1
      let newCollapseReInds := r.2.1
      let newExpandSizes := r.2.2
      let staticSizes := newExpandSizes.map ofrToDim
      let expandResultType : RTT := ⟨staticSizes, expandOp.resultType.elem⟩
      let newExpand : ExpandShapeOp :=
        ⟨collapseOp.src, newExpandReInds, newExpandSizes, expandResultType⟩
      let newCollapse : CollapseShapeOp :=
        ⟨Value.expandShapeV collapseOp.src newExpandReInds newExpandSizes expandResultType 1,
         newCollapseReInds,
         inferCollapsedType expandResultType newCollapseReInds⟩
      ([RAction.createOp, RAction.createOp, RAction.replaceOp],
       some (newExpand, newCollapse))

/-- The rewrite patterns of the file, as registered. -/
inductive PatternId : Type where
  | foldExpandOfRankReducingExtract : PatternId
  | foldUnPaddingCollapseIntoExtract : PatternId
  | foldInsertOfRankReducingInsert (k : InsertKind) : PatternId
  | foldPaddingExpandIntoInsert (k : InsertKind) : PatternId
  | bubbleUpExpandThroughParallelCollapse : PatternId
deriving DecidableEq

/-- `populateReassociativeReshapeFoldingPatterns`: the folding group. -/
def populateReassociativeReshapeFoldingPatterns : List PatternId :=
  [PatternId.foldExpandOfRankReducingExtract,
   PatternId.foldUnPaddingCollapseIntoExtract,
   PatternId.foldInsertOfRankReducingInsert InsertKind.insertSlice,
   PatternId.foldInsertOfRankReducingInsert InsertKind.parallelInsertSlice,
   PatternId.foldPaddingExpandIntoInsert InsertKind.insertSlice,
   PatternId.foldPaddingExpandIntoInsert InsertKind.parallelInsertSlice]

/-- `populateBubbleUpExpandShapePatterns`: the reordering group. -/
def populateBubbleUpExpandShapePatterns : List PatternId :=
  [PatternId.bubbleUpExpandThroughParallelCollapse]

/-- A concrete tensor value: a fully static shape and an element function.
Only reads at in-bounds indices are meaningful.  Modelled from the spec's data
model (section 3): operations compute element-wise functions of their input. -/
structure TVal : Type where
  shape : List Nat
  data : List Nat → Int

/-- An index is valid for a shape when it has the same rank and is bounded by
it componentwise. -/
def validIdx (sh idx : List Nat) : Prop :=
  idx.length = sh.length ∧ ∀ p ∈ idx.zip sh, p.1 < p.2

instance (sh idx : List Nat) : Decidable (validIdx sh idx) := by
  unfold validIdx; infer_instance

/-- Split a list into consecutive chunks of the given lengths. -/
def splitBy {σ : Type} : List Nat → List σ → List (List σ)
  | [], _ => []
  | l :: ls, xs => xs.take l :: splitBy ls (xs.drop l)

/-- Row-major linearization of a multi-index with respect to a shape. -/
def lin : List Nat → List Nat → Nat
  | _ :: ds, i :: is => i * ds.prod + lin ds is
  | _, _ => 0

/-- Row-major delinearization of a flat index with respect to a shape.  The
leading digit is not reduced, so `lin sh (delin sh n) = n` for `n < sh.prod`. -/
def delin : List Nat → Nat → List Nat
  | [], _ => []
  | _ :: ds, n => n / ds.prod :: delin ds (n % ds.prod)

/-- Keep the entries of a list selected by a boolean mask. -/
def filterKeep {σ : Type} : List Bool → List σ → List σ
  | true :: ks, x :: xs => x :: filterKeep ks xs
  | false :: ks, _ :: xs => filterKeep ks xs
  | _, _ => []

/-- Re-embed a reduced index into the full rank, writing 0 at dropped
positions (dropped dimensions have extent 1, so 0 is their only index). -/
def embedIdx : List Bool → List Nat → List Nat
  | [], _ => []
  | true :: ks, [] => 0 :: embedIdx ks []
  | true :: ks, x :: xs => x :: embedIdx ks xs
  | false :: ks, xs => 0 :: embedIdx ks xs

/-- Compose two rank-reduction keep-masks: the second mask applies to the
dimensions kept by the first. -/
def maskCompose : List Bool → List Bool → List Bool
  | [], _ => []
  | true :: ks, [] => false :: maskCompose ks []
  | true :: ks, b :: bs => b :: maskCompose ks bs
  | false :: ks, bs => false :: maskCompose ks bs

/-- The source coordinate addressed by an `extract_slice` at a given result
index: offset plus stride times index, per dimension. -/
def sliceIdx : List Nat → List Nat → List Nat → List Nat
  | o :: os, s :: ss, i :: is => (o + s * i) :: sliceIdx os ss is
  | _, _, _ => []

/-- Semantics of a non-rank-reducing `extract_slice` (spec section 3): the
result has the sizes as its shape and reads the source at
offset + stride * index. -/
def extractSliceSem (offsets sizes strides : List Nat) (t : TVal) : TVal :=
  ⟨sizes, fun j => t.data (sliceIdx offsets strides j)⟩

/-- Semantics of rank reduction (dropping static size-1 dimensions): the
reduced tensor reads the full tensor with 0 at each dropped position. -/
def reduceSem (keep : List Bool) (t : TVal) : TVal :=
  ⟨filterKeep keep t.shape, fun j => t.data (embedIdx keep j)⟩

/-- Semantics of `expand_shape` (spec section 3), with the reassociation given
by its group lengths (groups are contiguous, in order, covering): the result
reads the source at the per-group row-major linearization of its index. -/
def expandSem (lens : List Nat) (outShape : List Nat) (t : TVal) : TVal :=
  ⟨outShape,
   fun idx => t.data (((splitBy lens outShape).zip (splitBy lens idx)).map
     (fun p => lin p.1 p.2))⟩

/-- Semantics of `collapse_shape` (spec section 3): each group of source
dimensions merges into one result dimension of extent their product, and the
source is read at the per-group delinearization of the result index. -/
def collapseSem (lens : List Nat) (t : TVal) : TVal :=
  ⟨(splitBy lens t.shape).map List.prod,
   fun idx => t.data ((((splitBy lens t.shape).zip idx).map
     (fun p => delin p.1 p.2)).flatten)⟩

/-- Whether a destination index lies in the region addressed by an insert,
i.e. equals offset + stride * j for some j bounded by the sizes. -/
def inRegion : List Nat → List Nat → List Nat → List Nat → Bool
  | [], [], [], [] => true
  | o :: os, z :: zs, s :: ss, i :: is =>
      decide (o ≤ i) && decide ((i - o) % s = 0) && decide ((i - o) / s < z)
        && inRegion os zs ss is
  | _, _, _, _ => false

/-- The region-relative multi-index of a destination index. -/
def regionIdx : List Nat → List Nat → List Nat → List Nat
  | o :: os, s :: ss, i :: is => (i - o) / s :: regionIdx os ss is
  | _, _, _ => []

/-- Semantics of an insert-like operation (spec section 3), with the source
possibly rank-reduced by a keep-mask relative to the sizes: inside the
addressed region the result reads the source at the (reduced) region index,
elsewhere it reads the destination. -/
def insertSliceSem (keep : List Bool) (offsets sizes strides : List Nat)
    (src dest : TVal) : TVal :=
  ⟨dest.shape,
   fun idx =>
     if inRegion offsets sizes strides idx then
       src.data (filterKeep keep (regionIdx offsets strides idx))
     else dest.data idx⟩

/-- The hypothesis that a keep-mask only drops size-1 dimensions. -/
def dropsOnlyOnes (keep : List Bool) (sh : List Nat) : Prop :=
  ∀ p ∈ keep.zip sh, p.1 = false → p.2 = 1

instance (keep : List Bool) (sh : List Nat) : Decidable (dropsOnlyOnes keep sh) := by
  unfold dropsOnlyOnes; infer_instance

/-- Contiguous, order-preserving index groups of the given lengths, starting
at the given index. -/
def rangesOf : Nat → List Nat → List (List Nat)
  | _, [] => []
  | i, l :: ls => List.range' i l :: rangesOf (i + l) ls

/-- Follows the spec's per-position description (refinement): the group-length
structure of the new expand's reassociation — at a position whose collapse
group is not a singleton, that many singleton groups; otherwise one group of
the expand group's length. -/
def eLensStruct : List (List Nat) → List (List Nat) → List Nat
  | [], _ => []
  | c :: cs, es =>
    (if c.length ≠ 1 then List.replicate c.length 1 else [(es.headD []).length])
      ++ eLensStruct cs (es.drop 1)

/-- Follows the spec's per-position description (refinement): the group-length
structure of the new collapse's reassociation — dual to `eLensStruct`. -/
def cLensStruct : List (List Nat) → List (List Nat) → List Nat
  | [], _ => []
  | c :: cs, es =>
    (if c.length ≠ 1 then [c.length] else List.replicate (es.headD []).length 1)
      ++ cLensStruct cs (es.drop 1)

/-- Follows the spec's per-position description (refinement): the intermediate
sizes — at a position whose collapse group is not a singleton, the collapse
source's own sizes for that group; otherwise the expand's declared output
sizes for that group. -/
def sizesStruct {σ : Type} :
    List (List Nat) → List (List Nat) → List σ → List σ → List σ
  | [], _, _, _ => []
  | c :: cs, es, X, E =>
    if c.length ≠ 1 then
      X.take c.length ++ sizesStruct cs (es.drop 1) (X.drop c.length) (E.drop 1)
    else
      E.take (es.headD []).length
        ++ sizesStruct cs (es.drop 1) (X.drop 1) (E.drop (es.headD []).length)

instance : Mul Dim := ⟨dimMul⟩

instance : One Dim := ⟨Dim.static 1⟩

instance : CommMonoid Dim where
  mul_assoc a b c := by
    have h : ∀ x y : Dim, x * y = dimMul x y := fun _ _ => rfl
    cases a <;> cases b <;> cases c <;>
      simp [h, dimMul, Nat.mul_assoc]
  one_mul a := by
    have h : ∀ x y : Dim, x * y = dimMul x y := fun _ _ => rfl
    have h1 : (1 : Dim) = Dim.static 1 := rfl
    cases a <;> simp [h1, h, dimMul]
  mul_one a := by
    have h : ∀ x y : Dim, x * y = dimMul x y := fun _ _ => rfl
    have h1 : (1 : Dim) = Dim.static 1 := rfl
    cases a <;> simp [h1, h, dimMul]
  mul_comm a b := by
    have h : ∀ x y : Dim, x * y = dimMul x y := fun _ _ => rfl
    cases a <;> cases b <;> simp [h, dimMul, Nat.mul_comm]

/-- A concrete tensor of shape [8, 1, 8] whose entries are their row-major
linear index (the spec's 4.1 example source). -/
def exTV : TVal := ⟨[8, 1, 8], fun l => (lin [8, 1, 8] l : Int)⟩

/-- The spec's 4.1 example source value: a tensor of shape [8, 1, 8]. -/
def exSrc818 : Value :=
  Value.fromElsewhere ⟨[Dim.static 8, Dim.static 1, Dim.static 8], 0⟩ 1

/-- The spec's 4.1 example extract: offsets [2,0,0], sizes [4,1,4], strides
[1,1,1], rank-reduced result type [4,4]. -/
def exExtract44 : Value :=
  Value.extractSliceV exSrc818
    [OFR.static 2, OFR.static 0, OFR.static 0]
    [OFR.static 4, OFR.static 1, OFR.static 4]
    [OFR.static 1, OFR.static 1, OFR.static 1]
    ⟨[Dim.static 4, Dim.static 4], 0⟩ 1

/-- The spec's 4.1 example expand: [4,4] back to [4,1,4]. -/
def exExpand414 : ExpandShapeOp :=
  ⟨exExtract44, [[0], [1, 2]],
   [OFR.static 4, OFR.static 1, OFR.static 4],
   ⟨[Dim.static 4, Dim.static 1, Dim.static 4], 0⟩⟩

/-- The spec's 4.3-style example: a [4,1,4] tensor collapsed to [4,4] would
not fit; instead, the collapse source has exactly the insert's sizes [4,1,4]
and is collapsed to [4,4] before a rank-reducing insert with sizes [4,1,4]. -/
def exCollapse44 : Value :=
  Value.collapseShapeV
    (Value.fromElsewhere ⟨[Dim.static 4, Dim.static 1, Dim.static 4], 0⟩ 1)
    [[0, 1], [2]]
    ⟨[Dim.static 4, Dim.static 4], 0⟩ 1

def exInsertOfCollapse : InsertSliceOp :=
  ⟨InsertKind.insertSlice, exCollapse44,
   Value.fromElsewhere ⟨[Dim.static 8, Dim.static 1, Dim.static 8], 0⟩ 1,
   [OFR.static 2, OFR.static 0, OFR.static 0],
   [OFR.static 4, OFR.static 1, OFR.static 4],
   [OFR.static 1, OFR.static 1, OFR.static 1]⟩

/-- A padding expand: [4] to [1,4] (the added dimension has static size 1). -/
def exExpandPad : Value :=
  Value.expandShapeV (Value.fromElsewhere ⟨[Dim.static 4], 0⟩ 1)
    [[0, 1]] [OFR.static 1, OFR.static 4] ⟨[Dim.static 1, Dim.static 4], 0⟩ 1

def exInsertOfExpand : InsertSliceOp :=
  ⟨InsertKind.insertSlice, exExpandPad,
   Value.fromElsewhere ⟨[Dim.static 1, Dim.static 4], 0⟩ 1,
   [OFR.static 0, OFR.static 0],
   [OFR.static 1, OFR.static 4],
   [OFR.static 1, OFR.static 1]⟩

/-- The spec's 4.5 example: `x` of shape [12], collapse [[0]] to [12], expand
[[0,1]] to [3,4]. -/
def exCollapse12 : Value :=
  Value.collapseShapeV (Value.fromElsewhere ⟨[Dim.static 12], 0⟩ 1)
    [[0]] ⟨[Dim.static 12], 0⟩ 1

def exExpand34 : ExpandShapeOp :=
  ⟨exCollapse12, [[0, 1]], [OFR.static 3, OFR.static 4],
   ⟨[Dim.static 3, Dim.static 4], 0⟩⟩

/-- An extract of the spec's 4.2-negative shape: the producing extract has
two uses, so the collapse-into-extract fold must decline. -/
def exExtractTwoUses : Value :=
  Value.extractSliceV exSrc818
    [OFR.static 2, OFR.static 0, OFR.static 0]
    [OFR.static 4, OFR.static 1, OFR.static 4]
    [OFR.static 1, OFR.static 1, OFR.static 1]
    ⟨[Dim.static 4, Dim.static 1, Dim.static 4], 0⟩ 2

def exCollapseMultiUse : CollapseShapeOp :=
  ⟨exExtractTwoUses, [[0, 1], [2]], ⟨[Dim.static 4, Dim.static 4], 0⟩⟩

/-- A single-use extract whose collapse does real merging ([2,2] to [4]):
the rule declines with the diagnostic. -/
def exExtract22 : Value :=
  Value.extractSliceV (Value.fromElsewhere ⟨[Dim.static 8, Dim.static 8], 0⟩ 1)
    [OFR.static 0, OFR.static 0] [OFR.static 2, OFR.static 2]
    [OFR.static 1, OFR.static 1] ⟨[Dim.static 2, Dim.static 2], 0⟩ 1

def exCollapseMerge : CollapseShapeOp :=
  ⟨exExtract22, [[0, 1]], ⟨[Dim.static 4], 0⟩⟩

/-- Any operation of the file's four root kinds, so that a folding rule can
be "re-run at" an operation produced by a rewrite. -/
inductive AnyOp : Type where
  | expandShapeOp (e : ExpandShapeOp) : AnyOp
  | collapseShapeOp (c : CollapseShapeOp) : AnyOp
  | insertSliceOp (i : InsertSliceOp) : AnyOp
  | extractSliceOp (x : ExtractSliceOp) : AnyOp
deriving DecidableEq

/-- Running rule 4.1 at an arbitrary operation: it only roots at
ExpandShape. -/
def runFoldExpandOfRankReducingExtract : AnyOp → Option ExtractSliceOp
  | AnyOp.expandShapeOp e => (FoldExpandOfRankReducingExtract e).2
  | _ => none

/-- Running rule 4.2 at an arbitrary operation: it only roots at
CollapseShape. -/
def runFoldUnPaddingCollapseIntoExtract : AnyOp → Option ExtractSliceOp
  | AnyOp.collapseShapeOp c => (FoldUnPaddingCollapseIntoExtract c).2
  | _ => none

/-- The chained-expand input refuting C8: an insert whose source is a padding
expand whose own source is again a padding expand. -/
def cexX4 : Value := Value.fromElsewhere ⟨[Dim.static 4], 0⟩ 1

def cexExpand1 : Value :=
  Value.expandShapeV cexX4 [[0, 1]] [OFR.static 4, OFR.static 1]
    ⟨[Dim.static 4, Dim.static 1], 0⟩ 1

def cexExpand2 : Value :=
  Value.expandShapeV cexExpand1 [[0, 1], [2]]
    [OFR.static 1, OFR.static 4, OFR.static 1]
    ⟨[Dim.static 1, Dim.static 4, Dim.static 1], 0⟩ 1

def cexInsert : InsertSliceOp :=
  ⟨InsertKind.insertSlice, cexExpand2,
   Value.fromElsewhere ⟨[Dim.static 1, Dim.static 4, Dim.static 1], 0⟩ 1,
   [OFR.static 0, OFR.static 0, OFR.static 0],
   [OFR.static 1, OFR.static 4, OFR.static 1],
   [OFR.static 1, OFR.static 1, OFR.static 1]⟩

theorem validIdx_nil_iff (idx : List Nat) : validIdx [] idx ↔ idx = [] := by
  constructor
  · intro h; exact List.length_eq_zero.mp h.1
  · intro h; subst h; exact ⟨rfl, by intro p hp; simp at hp⟩

theorem validIdx_cons (d : Nat) (ds : List Nat) (i : Nat) (is : List Nat) :
    validIdx (d :: ds) (i :: is) ↔ i < d ∧ validIdx ds is := by
  simp only [validIdx, List.length_cons, List.zip_cons_cons, List.forall_mem_cons,
    Nat.succ_inj']
  tauto

@[simp] theorem lin_cons (d : Nat) (ds : List Nat) (i : Nat) (is : List Nat) :
    lin (d :: ds) (i :: is) = i * ds.prod + lin ds is := rfl

@[simp] theorem lin_nil_left (idx : List Nat) : lin [] idx = 0 := by
  cases idx <;> rfl

@[simp] theorem lin_nil_right (sh : List Nat) : lin sh [] = 0 := by
  cases sh <;> rfl

@[simp] theorem delin_nil (n : Nat) : delin [] n = [] := rfl

@[simp] theorem delin_cons (d : Nat) (ds : List Nat) (n : Nat) :
    delin (d :: ds) n = n / ds.prod :: delin ds (n % ds.prod) := rfl

@[simp] theorem delin_length : ∀ (sh : List Nat) (n : Nat),
    (delin sh n).length = sh.length
  | [], _ => rfl
  | _ :: ds, n => by simp [delin_length ds]

theorem prod_pos_of_validIdx : ∀ {sh idx : List Nat}, validIdx sh idx → 0 < sh.prod
  | [], _, _ => by simp
  | _ :: _, [], h => by simp [validIdx] at h
  | d :: ds, i :: is, h => by
    rw [validIdx_cons] at h
    have h1 := prod_pos_of_validIdx h.2
    have hd : 0 < d := Nat.lt_of_le_of_lt (Nat.zero_le i) h.1
    simpa [List.prod_cons] using Nat.mul_pos hd h1

theorem lin_lt_prod : ∀ {sh idx : List Nat}, validIdx sh idx → lin sh idx < sh.prod
  | [], idx, h => by
    rw [validIdx_nil_iff] at h; subst h; simp
  | _ :: _, [], h => by simp [validIdx] at h
  | d :: ds, i :: is, h => by
    rw [validIdx_cons] at h
    have h1 := lin_lt_prod h.2
    have : i * ds.prod + lin ds is < (i + 1) * ds.prod := by
      rw [Nat.succ_mul]; omega
    have h2 : (i + 1) * ds.prod ≤ d * ds.prod :=
      Nat.mul_le_mul_right _ h.1
    simp only [lin_cons, List.prod_cons]
    omega

theorem delin_lin : ∀ {sh idx : List Nat}, validIdx sh idx →
    delin sh (lin sh idx) = idx
  | [], idx, h => by rw [validIdx_nil_iff] at h; subst h; rfl
  | _ :: _, [], h => by simp [validIdx] at h
  | d :: ds, i :: is, h => by
    rw [validIdx_cons] at h
    have hlt := lin_lt_prod h.2
    have hp : 0 < ds.prod := prod_pos_of_validIdx h.2
    have hcomm : i * ds.prod + lin ds is = lin ds is + i * ds.prod := by omega
    simp only [lin_cons, delin_cons, hcomm]
    rw [Nat.add_mul_div_right _ _ hp, Nat.div_eq_of_lt hlt,
      Nat.add_mul_mod_self_right, Nat.mod_eq_of_lt hlt, delin_lin h.2]
    simp

theorem lin_delin : ∀ (sh : List Nat) {n : Nat}, n < sh.prod →
    lin sh (delin sh n) = n
  | [], n, h => by simp at h ⊢; omega
  | d :: ds, n, h => by
    by_cases hp : ds.prod = 0
    · rw [List.prod_cons, hp, Nat.mul_zero] at h; omega
    · have hp' : 0 < ds.prod := Nat.pos_of_ne_zero hp
      simp only [delin_cons, lin_cons]
      rw [lin_delin ds (Nat.mod_lt n hp'), Nat.mul_comm]
      exact Nat.div_add_mod n ds.prod

theorem delin_append : ∀ (xs ys : List Nat) {n : Nat}, n < (xs ++ ys).prod →
    delin (xs ++ ys) n = delin xs (n / ys.prod) ++ delin ys (n % ys.prod)
  | [], ys, n, h => by
    simp only [List.nil_append, delin_nil]
    rw [Nat.mod_eq_of_lt (by simpa using h)]
  | x :: xs, ys, n, h => by
    have hprod : ((x :: xs) ++ ys).prod = x * (xs.prod * ys.prod) := by
      simp [List.prod_cons, List.prod_append]
    by_cases h0 : xs.prod * ys.prod = 0
    · rw [hprod, h0, Nat.mul_zero] at h; omega
    · have h0' : 0 < xs.prod * ys.prod := Nat.pos_of_ne_zero h0
      have hm : n % (xs.prod * ys.prod) < (xs ++ ys).prod := by
        rw [List.prod_append]; exact Nat.mod_lt n h0'
      simp only [List.cons_append, delin_cons, List.prod_append]
      rw [delin_append xs ys hm]
      have hhead : n / (xs.prod * ys.prod) = n / ys.prod / xs.prod := by
        rw [Nat.div_div_eq_div_mul, Nat.mul_comm]
      have ht1 : n % (xs.prod * ys.prod) / ys.prod = n / ys.prod % xs.prod := by
        rw [Nat.mul_comm]; exact Nat.mod_mul_right_div_self n ys.prod xs.prod
      have ht2 : n % (xs.prod * ys.prod) % ys.prod = n % ys.prod :=
        Nat.mod_mod_of_dvd n ⟨xs.prod, Nat.mul_comm xs.prod ys.prod⟩
      rw [hhead, ht1, ht2]

@[simp] theorem splitBy_nil {σ : Type} (xs : List σ) : splitBy [] xs = [] := rfl

@[simp] theorem splitBy_cons {σ : Type} (l : Nat) (ls : List Nat) (xs : List σ) :
    splitBy (l :: ls) xs = xs.take l :: splitBy ls (xs.drop l) := rfl

theorem splitBy_append {σ : Type} : ∀ (as bs : List Nat) (xs : List σ),
    splitBy (as ++ bs) xs = splitBy as xs ++ splitBy bs (xs.drop as.sum)
  | [], bs, xs => by simp
  | a :: as, bs, xs => by
    simp only [List.cons_append, splitBy_cons, List.sum_cons, List.cons_append]
    rw [splitBy_append as bs (xs.drop a), List.drop_drop]

theorem flatten_splitBy {σ : Type} : ∀ (lens : List Nat) (xs : List σ),
    lens.sum = xs.length → (splitBy lens xs).flatten = xs
  | [], xs, h => by
    simp only [List.sum_nil] at h
    simp [(List.length_eq_zero.mp h.symm)]
  | l :: ls, xs, h => by
    simp only [List.sum_cons] at h
    simp only [splitBy_cons, List.flatten_cons]
    rw [flatten_splitBy ls (xs.drop l) (by simp only [List.length_drop]; omega)]
    exact List.take_append_drop l xs

theorem map_length_splitBy {σ : Type} : ∀ (lens : List Nat) (xs : List σ),
    lens.sum ≤ xs.length → (splitBy lens xs).map List.length = lens
  | [], _, _ => rfl
  | l :: ls, xs, h => by
    simp only [List.sum_cons] at h
    simp only [splitBy_cons, List.map_cons, List.length_take]
    rw [map_length_splitBy ls (xs.drop l) (by simp [List.length_drop]; omega)]
    congr 1
    omega

theorem length_splitBy {σ : Type} : ∀ (lens : List Nat) (xs : List σ),
    (splitBy lens xs).length = lens.length
  | [], _ => rfl
  | _ :: ls, xs => by simp [length_splitBy ls]

/-- Delinearizing over a flattened chunk list and then re-delinearizing each
per-chunk digit agrees with delinearizing over the concatenation: the index
map of a `collapse_shape` is row-major-compatible. -/
theorem collapse_index_eq : ∀ (chunks : List (List Nat)) {n : Nat},
    n < chunks.flatten.prod →
    ((chunks.zip (delin (chunks.map List.prod) n)).map
        (fun p => delin p.1 p.2)).flatten
      = delin chunks.flatten n
  | [], n, h => by simp
  | c :: cs, n, h => by
    have hP : (cs.map List.prod).prod = cs.flatten.prod := by
      rw [List.prod_flatten]
    have hflat : (c :: cs).flatten.prod = c.prod * cs.flatten.prod := by
      simp [List.prod_append]
    have h' : n < c.prod * cs.flatten.prod := hflat ▸ h
    by_cases h0 : cs.flatten.prod = 0
    · rw [h0, Nat.mul_zero] at h'; omega
    · have h0' : 0 < cs.flatten.prod := Nat.pos_of_ne_zero h0
      have hm : n % cs.flatten.prod < cs.flatten.prod := Nat.mod_lt n h0'
      simp only [List.map_cons, delin_cons, List.flatten_cons, List.zip_cons_cons,
        hP]
      rw [collapse_index_eq cs hm]
      rw [delin_append c cs.flatten (by rw [List.prod_append]; exact h')]

/-- Splitting a delinearized index chunk-wise and re-linearizing each chunk
agrees with delinearizing over the chunk products: the index map of an
`expand_shape` is row-major-compatible. -/
theorem expand_index_eq : ∀ (chunks : List (List Nat)) {n : Nat},
    n < chunks.flatten.prod →
    ((chunks.zip (splitBy (chunks.map List.length) (delin chunks.flatten n))).map
        (fun p => lin p.1 p.2))
      = delin (chunks.map List.prod) n
  | [], n, h => by simp
  | c :: cs, n, h => by
    have hP : (cs.map List.prod).prod = cs.flatten.prod := by
      rw [List.prod_flatten]
    have hflat : (c :: cs).flatten.prod = c.prod * cs.flatten.prod := by
      simp [List.prod_append]
    have h' : n < c.prod * cs.flatten.prod := hflat ▸ h
    by_cases h0 : cs.flatten.prod = 0
    · rw [h0, Nat.mul_zero] at h'; omega
    · have h0' : 0 < cs.flatten.prod := Nat.pos_of_ne_zero h0
      have hm : n % cs.flatten.prod < cs.flatten.prod := Nat.mod_lt n h0'
      have hdiv : n / cs.flatten.prod < c.prod :=
        Nat.div_lt_of_lt_mul (by rw [Nat.mul_comm] at h'; exact h')
      have happ := delin_append c cs.flatten
        (n := n) (by rw [List.prod_append]; exact h')
      simp only [List.flatten_cons, List.map_cons]
      rw [happ]
      have hlen : (delin c (n / cs.flatten.prod)).length = c.length := delin_length _ _
      simp only [splitBy_cons, List.zip_cons_cons, List.map_cons, delin_cons, hP]
      rw [List.take_left' hlen, List.drop_left' hlen]
      rw [expand_index_eq cs hm, lin_delin c hdiv]

theorem dropsOnlyOnes_cons {b : Bool} {ks : List Bool} {d : Nat} {ds : List Nat} :
    dropsOnlyOnes (b :: ks) (d :: ds) ↔
      (b = false → d = 1) ∧ dropsOnlyOnes ks ds := by
  simp [dropsOnlyOnes, List.forall_mem_cons]

theorem filterKeep_length {σ : Type} : ∀ {keep : List Bool} {xs : List σ},
    keep.length = xs.length →
    (filterKeep keep xs).length = keep.count true
  | [], [], _ => rfl
  | true :: ks, x :: xs, h => by
    simp only [List.length_cons, Nat.succ_inj'] at h
    simp [filterKeep, filterKeep_length h, List.count_cons]
  | false :: ks, x :: xs, h => by
    simp only [List.length_cons, Nat.succ_inj'] at h
    simp [filterKeep, filterKeep_length h, List.count_cons]
  | [], _ :: _, h => by simp at h
  | _ :: _, [], h => by simp at h

theorem prod_filterKeep : ∀ {keep : List Bool} {sh : List Nat},
    keep.length = sh.length → dropsOnlyOnes keep sh →
    (filterKeep keep sh).prod = sh.prod
  | [], [], _, _ => rfl
  | true :: ks, d :: ds, h, hd => by
    simp only [List.length_cons, Nat.succ_inj'] at h
    rw [dropsOnlyOnes_cons] at hd
    simp [filterKeep, List.prod_cons, prod_filterKeep h hd.2]
  | false :: ks, d :: ds, h, hd => by
    simp only [List.length_cons, Nat.succ_inj'] at h
    rw [dropsOnlyOnes_cons] at hd
    simp [filterKeep, List.prod_cons, prod_filterKeep h hd.2, hd.1 rfl]
  | [], _ :: _, h, _ => by simp at h
  | _ :: _, [], h, _ => by simp at h

theorem embed_delin : ∀ {keep : List Bool} {sh : List Nat} {n : Nat},
    keep.length = sh.length → dropsOnlyOnes keep sh → n < sh.prod →
    embedIdx keep (delin (filterKeep keep sh) n) = delin sh n
  | [], [], n, _, _, hn => rfl
  | true :: ks, d :: ds, n, h, hd, hn => by
    simp only [List.length_cons, Nat.succ_inj'] at h
    rw [dropsOnlyOnes_cons] at hd
    have hp : (filterKeep ks ds).prod = ds.prod := prod_filterKeep h hd.2
    by_cases h0 : ds.prod = 0
    · rw [List.prod_cons, h0, Nat.mul_zero] at hn; omega
    · have hm : n % ds.prod < ds.prod := Nat.mod_lt n (Nat.pos_of_ne_zero h0)
      simp only [filterKeep, delin_cons, embedIdx, hp]
      rw [embed_delin h hd.2 hm]
  | false :: ks, d :: ds, n, h, hd, hn => by
    simp only [List.length_cons, Nat.succ_inj'] at h
    rw [dropsOnlyOnes_cons] at hd
    have hd1 : d = 1 := hd.1 rfl
    subst hd1
    rw [List.prod_cons, Nat.one_mul] at hn
    simp only [filterKeep, delin_cons, embedIdx]
    rw [embed_delin h hd.2 hn, Nat.div_eq_of_lt hn, Nat.mod_eq_of_lt hn]
  | [], _ :: _, n, h, _, _ => by simp at h
  | _ :: _, [], n, h, _, _ => by simp at h

theorem filterKeep_embedIdx {σ : Type} : ∀ {keep : List Bool} {sh : List σ}
    (w : List Nat), keep.length = sh.length →
    w.length = (filterKeep keep sh).length →
    filterKeep keep (embedIdx keep w) = w
  | [], [], w, _, h2 => by
    simp only [filterKeep, List.length_nil] at h2
    rw [List.length_eq_zero.mp h2]
    rfl
  | true :: ks, s :: sh, [], h, h2 => by
    simp only [filterKeep, List.length_cons, List.length_nil] at h2
    omega
  | true :: ks, s :: sh, x :: xs, h, h2 => by
    simp only [List.length_cons, Nat.succ_inj'] at h
    simp only [filterKeep, List.length_cons, Nat.succ_inj'] at h2
    simp only [embedIdx, filterKeep]
    rw [filterKeep_embedIdx xs h h2]
  | false :: ks, s :: sh, w, h, h2 => by
    simp only [List.length_cons, Nat.succ_inj'] at h
    simp only [filterKeep] at h2
    simp only [embedIdx, filterKeep]
    rw [filterKeep_embedIdx w h h2]
  | [], _ :: _, _, h, _ => by simp at h
  | _ :: _, [], _, h, _ => by simp at h

theorem filter_delin {keep : List Bool} {sh : List Nat} {n : Nat}
    (h : keep.length = sh.length) (hd : dropsOnlyOnes keep sh)
    (hn : n < sh.prod) :
    filterKeep keep (delin sh n) = delin (filterKeep keep sh) n := by
  rw [← embed_delin h hd hn]
  exact filterKeep_embedIdx _ h (delin_length _ _)

theorem maskCompose_length : ∀ (k0 k1 : List Bool),
    (maskCompose k0 k1).length = k0.length
  | [], _ => rfl
  | true :: ks, [] => by simp [maskCompose, maskCompose_length ks]
  | true :: ks, b :: bs => by simp [maskCompose, maskCompose_length ks]
  | false :: ks, bs => by simp [maskCompose, maskCompose_length ks]

theorem filterKeep_nil_mask {σ : Type} (xs : List σ) : filterKeep [] xs = [] := by
  cases xs <;> rfl

theorem filterKeep_nil_list {σ : Type} (ks : List Bool) :
    filterKeep ks [] = ([] : List σ) := by
  cases ks with
  | nil => rfl
  | cons b bs => cases b <;> rfl

theorem filterKeep_maskCompose {σ : Type} : ∀ (k0 k1 : List Bool) (xs : List σ),
    k0.length = xs.length →
    filterKeep (maskCompose k0 k1) xs = filterKeep k1 (filterKeep k0 xs)
  | [], k1, xs, h => by
    rw [List.length_eq_zero.mp h.symm]
    simp only [maskCompose]
    rw [filterKeep_nil_mask, filterKeep_nil_list]
  | true :: ks, [], x :: xs, h => by
    simp only [List.length_cons, Nat.succ_inj'] at h
    simp only [maskCompose, filterKeep]
    rw [filterKeep_maskCompose ks [] xs h, filterKeep_nil_mask]
  | true :: ks, true :: bs, x :: xs, h => by
    simp only [List.length_cons, Nat.succ_inj'] at h
    simp only [maskCompose, filterKeep]
    rw [filterKeep_maskCompose ks bs xs h]
  | true :: ks, false :: bs, x :: xs, h => by
    simp only [List.length_cons, Nat.succ_inj'] at h
    simp only [maskCompose, filterKeep]
    rw [filterKeep_maskCompose ks bs xs h]
  | false :: ks, k1, x :: xs, h => by
    simp only [List.length_cons, Nat.succ_inj'] at h
    simp only [maskCompose, filterKeep]
    rw [filterKeep_maskCompose ks k1 xs h]
  | _ :: _, _, [], h => by simp at h

theorem dropsOnlyOnes_maskCompose : ∀ {k0 k1 : List Bool} {sh : List Nat},
    k0.length = sh.length → k1.length = (filterKeep k0 sh).length →
    dropsOnlyOnes k0 sh → dropsOnlyOnes k1 (filterKeep k0 sh) →
    dropsOnlyOnes (maskCompose k0 k1) sh
  | [], k1, [], _, _, _, _ => by intro p hp; simp [maskCompose] at hp
  | true :: ks, [], d :: ds, h, h1, hd, hd1 => by
    simp only [filterKeep, List.length_cons, List.length_nil] at h1
    omega
  | true :: ks, b :: bs, d :: ds, h, h1, hd, hd1 => by
    simp only [List.length_cons, Nat.succ_inj'] at h
    simp only [filterKeep, List.length_cons, Nat.succ_inj'] at h1
    rw [dropsOnlyOnes_cons] at hd
    simp only [filterKeep] at hd1
    rw [dropsOnlyOnes_cons] at hd1
    simp only [maskCompose]
    rw [dropsOnlyOnes_cons]
    exact ⟨hd1.1, dropsOnlyOnes_maskCompose h h1 hd.2 hd1.2⟩
  | false :: ks, k1, d :: ds, h, h1, hd, hd1 => by
    simp only [List.length_cons, Nat.succ_inj'] at h
    simp only [filterKeep] at h1 hd1
    rw [dropsOnlyOnes_cons] at hd
    simp only [maskCompose]
    rw [dropsOnlyOnes_cons]
    exact ⟨fun _ => hd.1 rfl, dropsOnlyOnes_maskCompose h h1 hd.2 hd1⟩
  | [], _, _ :: _, h, _, _, _ => by simp at h
  | _ :: _, _, [], h, _, _, _ => by simp at h

/-- What a successful greedy rank-reduction mask over fully static shapes
means: the mask has the original rank, keeps exactly the reduced shape, and
drops only size-1 dimensions. -/
theorem mask_spec : ∀ {A B : List Nat} {keep : List Bool},
    computeRankReductionMask (A.map Dim.static) (B.map Dim.static) = some keep →
    keep.length = A.length ∧ filterKeep keep A = B ∧ dropsOnlyOnes keep A
  | [], [], keep, h => by
    simp only [List.map_nil, computeRankReductionMask, Option.some_inj] at h
    subst h
    exact ⟨rfl, rfl, by intro p hp; simp at hp⟩
  | [], b :: B, keep, h => by
    simp [computeRankReductionMask] at h
  | a :: A, [], keep, h => by
    simp only [List.map_cons, List.map_nil, computeRankReductionMask] at h
    split at h
    case isTrue ha =>
      rw [Option.map_eq_some'] at h
      obtain ⟨k', hk', hkeep⟩ := h
      obtain ⟨h1, h2, h3⟩ := mask_spec (A := A) (B := []) (by simpa using hk')
      have ha' : a = 1 := Dim.static.inj ha
      subst hkeep
      subst ha'
      refine ⟨by simp [h1], by simp [filterKeep, h2], ?_⟩
      rw [dropsOnlyOnes_cons]
      exact ⟨fun _ => rfl, h3⟩
    case isFalse => simp at h
  | a :: A, b :: B, keep, h => by
    simp only [List.map_cons, computeRankReductionMask] at h
    split at h
    case isTrue hab =>
      rw [Option.map_eq_some'] at h
      obtain ⟨k', hk', hkeep⟩ := h
      obtain ⟨h1, h2, h3⟩ := mask_spec hk'
      have hab' : a = b := Dim.static.inj hab
      subst hkeep
      subst hab'
      refine ⟨by simp [h1], by simp [filterKeep, h2], ?_⟩
      rw [dropsOnlyOnes_cons]
      exact ⟨by simp, h3⟩
    case isFalse =>
      split at h
      case isTrue ha =>
        rw [Option.map_eq_some'] at h
        obtain ⟨k', hk', hkeep⟩ := h
        rw [show (Dim.static b :: List.map Dim.static B) = List.map Dim.static (b :: B)
          from rfl] at hk'
        obtain ⟨h1, h2, h3⟩ := mask_spec hk'
        have ha' : a = 1 := Dim.static.inj ha
        subst hkeep
        subst ha'
        refine ⟨by simp [h1], by simp [filterKeep, h2], ?_⟩
        rw [dropsOnlyOnes_cons]
        exact ⟨fun _ => rfl, h3⟩
      case isFalse => simp at h

@[simp] theorem extractSliceSem_shape (offs szs strs : List Nat) (t : TVal) :
    (extractSliceSem offs szs strs t).shape = szs := rfl

@[simp] theorem extractSliceSem_data (offs szs strs : List Nat) (t : TVal)
    (j : List Nat) :
    (extractSliceSem offs szs strs t).data j = t.data (sliceIdx offs strs j) := rfl

@[simp] theorem reduceSem_shape (keep : List Bool) (t : TVal) :
    (reduceSem keep t).shape = filterKeep keep t.shape := rfl

@[simp] theorem reduceSem_data (keep : List Bool) (t : TVal) (j : List Nat) :
    (reduceSem keep t).data j = t.data (embedIdx keep j) := rfl

@[simp] theorem expandSem_shape (lens outShape : List Nat) (t : TVal) :
    (expandSem lens outShape t).shape = outShape := rfl

@[simp] theorem expandSem_data (lens outShape : List Nat) (t : TVal)
    (idx : List Nat) :
    (expandSem lens outShape t).data idx
      = t.data (((splitBy lens outShape).zip (splitBy lens idx)).map
          (fun p => lin p.1 p.2)) := rfl

@[simp] theorem collapseSem_shape (lens : List Nat) (t : TVal) :
    (collapseSem lens t).shape = (splitBy lens t.shape).map List.prod := rfl

@[simp] theorem collapseSem_data (lens : List Nat) (t : TVal) (idx : List Nat) :
    (collapseSem lens t).data idx
      = t.data ((((splitBy lens t.shape).zip idx).map
          (fun p => delin p.1 p.2)).flatten) := rfl

@[simp] theorem insertSliceSem_shape (keep : List Bool)
    (offs szs strs : List Nat) (src dest : TVal) :
    (insertSliceSem keep offs szs strs src dest).shape = dest.shape := rfl

@[simp] theorem insertSliceSem_data (keep : List Bool)
    (offs szs strs : List Nat) (src dest : TVal) (idx : List Nat) :
    (insertSliceSem keep offs szs strs src dest).data idx
      = if inRegion offs szs strs idx then
          src.data (filterKeep keep (regionIdx offs strs idx))
        else dest.data idx := rfl

theorem validIdx_regionIdx : ∀ {offs szs strs idx : List Nat},
    inRegion offs szs strs idx = true → validIdx szs (regionIdx offs strs idx)
  | [], [], [], [], _ => ⟨rfl, by intro p hp; simp at hp⟩
  | o :: os, z :: zs, s :: ss, i :: is, h => by
    simp only [inRegion, Bool.and_eq_true, decide_eq_true_eq] at h
    have ih : validIdx zs (regionIdx os ss is) := validIdx_regionIdx h.2
    simp only [regionIdx]
    rw [validIdx_cons]
    exact ⟨h.1.2, ih⟩
  | [], [], [], _ :: _, h => by simp [inRegion] at h
  | [], [], _ :: _, _, h => by simp [inRegion] at h
  | [], _ :: _, _, _, h => by simp [inRegion] at h
  | _ :: _, [], _, _, h => by simp [inRegion] at h
  | _ :: _, _ :: _, [], _, h => by simp [inRegion] at h
  | _ :: _, _ :: _, _ :: _, [], h => by simp [inRegion] at h

theorem filterKeep_replicate_true {σ : Type} : ∀ (xs : List σ),
    filterKeep (List.replicate xs.length true) xs = xs
  | [] => rfl
  | x :: xs => by
    simp only [List.length_cons, List.replicate_succ, filterKeep]
    rw [filterKeep_replicate_true xs]

/-- Soundness of rule 4.1 (fold expand-after-extract): on a match, expanding a
rank-reduced extract back to the full slice sizes reads exactly as the
non-reducing extract itself, at every index of the shared result shape. -/
theorem sound_rule41
    (x : TVal) (offs szs strs : List Nat) (keep : List Bool) (eLens : List Nat)
    (hkl : keep.length = szs.length)
    (hdrop : dropsOnlyOnes keep szs)
    (hsum : eLens.sum = szs.length)
    (hwf : (splitBy eLens szs).map List.prod = filterKeep keep szs)
    (idx : List Nat) (hidx : validIdx szs idx) :
    (expandSem eLens szs (reduceSem keep (extractSliceSem offs szs strs x))).data idx
      = (extractSliceSem offs szs strs x).data idx := by
  have hn : lin szs idx < szs.prod := lin_lt_prod hidx
  have hidx' : delin szs (lin szs idx) = idx := delin_lin hidx
  have hflat : (splitBy eLens szs).flatten = szs := flatten_splitBy _ _ hsum
  have hlens : (splitBy eLens szs).map List.length = eLens :=
    map_length_splitBy _ _ (le_of_eq hsum)
  have hexp := expand_index_eq (splitBy eLens szs) (n := lin szs idx)
    (by rw [hflat]; exact hn)
  rw [hflat, hlens, hidx', hwf] at hexp
  rw [expandSem_data, reduceSem_data, hexp, embed_delin hkl hdrop hn, hidx']

/-- Soundness of rule 4.2 (fold collapse-into-extract): on a match (the
collapse's rank reduction passes the greedy mask check), collapsing the
rank-reduced extract reads exactly as a single extract rank-reduced by the
composed mask, at every index of the shared result shape. -/
theorem sound_rule42
    (x : TVal) (offs szs strs : List Nat) (keep0 kk : List Bool) (cLens : List Nat)
    (hk0 : keep0.length = szs.length)
    (hd0 : dropsOnlyOnes keep0 szs)
    (hsum : cLens.sum = (filterKeep keep0 szs).length)
    (hmask : computeRankReductionMask ((filterKeep keep0 szs).map Dim.static)
      (((splitBy cLens (filterKeep keep0 szs)).map List.prod).map Dim.static)
        = some kk)
    (idx : List Nat)
    (hidx : validIdx ((splitBy cLens (filterKeep keep0 szs)).map List.prod) idx) :
    (collapseSem cLens (reduceSem keep0 (extractSliceSem offs szs strs x))).data idx
      = (reduceSem (maskCompose keep0 kk) (extractSliceSem offs szs strs x)).data idx := by
  obtain ⟨hkk, hfkk, hdkk⟩ := mask_spec hmask
  set S0 := filterKeep keep0 szs with hS0
  set R := (splitBy cLens S0).map List.prod with hRdef
  have hflat : (splitBy cLens S0).flatten = S0 := flatten_splitBy _ _ hsum
  have hRprod : R.prod = S0.prod := by
    rw [hRdef, ← List.prod_flatten, hflat]
  have hS0prod : S0.prod = szs.prod := prod_filterKeep hk0 hd0
  have hn : lin R idx < R.prod := lin_lt_prod hidx
  have hnS : lin R idx < szs.prod := by omega
  have hidx' : delin R (lin R idx) = idx := delin_lin hidx
  have hcoll := collapse_index_eq (splitBy cLens S0) (n := lin R idx)
    (by rw [hflat]; omega)
  rw [hflat, ← hRdef, hidx'] at hcoll
  -- the composed mask of the replacement extract
  have hmc1 : (maskCompose keep0 kk).length = szs.length := by
    rw [maskCompose_length]; exact hk0
  have hmc2 : filterKeep (maskCompose keep0 kk) szs = R := by
    rw [filterKeep_maskCompose _ _ _ hk0, ← hS0, hfkk]
  have hmc3 : dropsOnlyOnes (maskCompose keep0 kk) szs :=
    dropsOnlyOnes_maskCompose hk0 (by rw [← hS0, hkk]) hd0 (hS0 ▸ hdkk)
  have hrhs : embedIdx (maskCompose keep0 kk)
      (delin (filterKeep (maskCompose keep0 kk) szs) (lin R idx))
        = delin szs (lin R idx) :=
    embed_delin hmc1 hmc3 hnS
  rw [hmc2, hidx'] at hrhs
  rw [collapseSem_data, reduceSem_data, reduceSem_data, reduceSem_shape,
    extractSliceSem_shape, ← hS0, hcoll, embed_delin hk0 hd0 hnS, hrhs]

/-- Soundness of rule 4.3 (fold collapse-into-insert): on a match (the
non-reducing source type equals the collapse's source type, i.e. the collapse
source has exactly the insert's sizes as shape), inserting the collapsed
tensor equals inserting its source directly without rank reduction, at every
destination index. -/
theorem sound_rule43
    (x dest : TVal) (offs szs strs : List Nat) (cLens : List Nat)
    (keepIns : List Bool)
    (hx : x.shape = szs)
    (hsum : cLens.sum = szs.length)
    (hkI : keepIns.length = szs.length)
    (hdI : dropsOnlyOnes keepIns szs)
    (hR : filterKeep keepIns szs = (splitBy cLens szs).map List.prod)
    (idx : List Nat) (hidx : validIdx dest.shape idx) :
    (insertSliceSem keepIns offs szs strs (collapseSem cLens x) dest).data idx
      = (insertSliceSem (List.replicate szs.length true) offs szs strs x dest).data idx := by
  rw [insertSliceSem_data, insertSliceSem_data]
  by_cases hreg : inRegion offs szs strs idx
  · rw [if_pos hreg, if_pos hreg]
    set j := regionIdx offs strs idx with hj
    have hjv : validIdx szs j := validIdx_regionIdx hreg
    have hn : lin szs j < szs.prod := lin_lt_prod hjv
    have hj' : delin szs (lin szs j) = j := delin_lin hjv
    have hjl : j.length = szs.length := hjv.1
    have hrep : filterKeep (List.replicate szs.length true) j = j := by
      rw [← hjl]; exact filterKeep_replicate_true j
    have hflat : (splitBy cLens szs).flatten = szs := flatten_splitBy _ _ hsum
    have hcoll := collapse_index_eq (splitBy cLens szs) (n := lin szs j)
      (by rw [hflat]; exact hn)
    rw [hflat] at hcoll
    have hfk : filterKeep keepIns j
        = delin ((splitBy cLens szs).map List.prod) (lin szs j) :=
      calc filterKeep keepIns j
          = filterKeep keepIns (delin szs (lin szs j)) := by rw [hj']
        _ = delin (filterKeep keepIns szs) (lin szs j) := filter_delin hkI hdI hn
        _ = delin ((splitBy cLens szs).map List.prod) (lin szs j) := by rw [hR]
    rw [hrep, collapseSem_data, hx, hfk, hcoll, hj']
  · rw [if_neg hreg, if_neg hreg]

/-- Soundness of rule 4.4 (fold expand-into-insert): on a match (the expand
only adds static size-1 dimensions, checked by the greedy mask), inserting the
expanded tensor equals inserting its source directly with the composed rank
reduction, at every destination index. -/
theorem sound_rule44
    (x dest : TVal) (offs szs strs : List Nat) (eLens Eshape : List Nat)
    (keepIns kE : List Bool)
    (hkI : keepIns.length = szs.length)
    (hdI : dropsOnlyOnes keepIns szs)
    (hE : filterKeep keepIns szs = Eshape)
    (hsum : eLens.sum = Eshape.length)
    (hwf : (splitBy eLens Eshape).map List.prod = x.shape)
    (hmask : computeRankReductionMask (Eshape.map Dim.static)
      (x.shape.map Dim.static) = some kE)
    (idx : List Nat) (hidx : validIdx dest.shape idx) :
    (insertSliceSem keepIns offs szs strs (expandSem eLens Eshape x) dest).data idx
      = (insertSliceSem (maskCompose keepIns kE) offs szs strs x dest).data idx := by
  obtain ⟨hkE, hfkE, hdkE⟩ := mask_spec hmask
  rw [insertSliceSem_data, insertSliceSem_data]
  by_cases hreg : inRegion offs szs strs idx
  · rw [if_pos hreg, if_pos hreg]
    set j := regionIdx offs strs idx with hj
    have hjv : validIdx szs j := validIdx_regionIdx hreg
    have hn : lin szs j < szs.prod := lin_lt_prod hjv
    have hj' : delin szs (lin szs j) = j := delin_lin hjv
    have hEprod : Eshape.prod = szs.prod := by
      rw [← hE]; exact prod_filterKeep hkI hdI
    have hflat : (splitBy eLens Eshape).flatten = Eshape := flatten_splitBy _ _ hsum
    have hlens : (splitBy eLens Eshape).map List.length = eLens :=
      map_length_splitBy _ _ (le_of_eq hsum)
    have hfk : filterKeep keepIns j = delin Eshape (lin szs j) :=
      calc filterKeep keepIns j
          = filterKeep keepIns (delin szs (lin szs j)) := by rw [hj']
        _ = delin (filterKeep keepIns szs) (lin szs j) := filter_delin hkI hdI hn
        _ = delin Eshape (lin szs j) := by rw [hE]
    have hexp := expand_index_eq (splitBy eLens Eshape) (n := lin szs j)
      (by rw [hflat]; omega)
    rw [hflat, hlens, hwf] at hexp
    -- right-hand side: the composed mask
    have hmc1 : (maskCompose keepIns kE).length = szs.length := by
      rw [maskCompose_length]; exact hkI
    have hmc2 : filterKeep (maskCompose keepIns kE) szs = x.shape := by
      rw [filterKeep_maskCompose _ _ _ hkI, hE, hfkE]
    have hmc3 : dropsOnlyOnes (maskCompose keepIns kE) szs :=
      dropsOnlyOnes_maskCompose hkI (by rw [hE, hkE]) hdI (by rw [hE]; exact hdkE)
    have hrhs : filterKeep (maskCompose keepIns kE) j
        = delin x.shape (lin szs j) :=
      calc filterKeep (maskCompose keepIns kE) j
          = filterKeep (maskCompose keepIns kE) (delin szs (lin szs j)) := by rw [hj']
        _ = delin (filterKeep (maskCompose keepIns kE) szs) (lin szs j) :=
            filter_delin hmc1 hmc3 hn
        _ = delin x.shape (lin szs j) := by rw [hmc2]
    rw [expandSem_data, hfk, hexp, hrhs]
  · rw [if_neg hreg, if_neg hreg]

theorem rangesOf_append : ∀ (as bs : List Nat) (i : Nat),
    rangesOf i (as ++ bs) = rangesOf i as ++ rangesOf (i + as.sum) bs
  | [], bs, i => by simp [rangesOf]
  | a :: as, bs, i => by
    simp only [List.cons_append, rangesOf, List.sum_cons, List.append_eq]
    rw [rangesOf_append as bs (i + a), Nat.add_assoc]

theorem sum_replicate_one (m : Nat) : (List.replicate m 1).sum = m := by
  simp [List.sum_replicate]

theorem rangesOf_replicate_one : ∀ (i m : Nat),
    rangesOf i (List.replicate m 1) = (List.range' i m).map (fun j => [j])
  | _, 0 => rfl
  | i, m + 1 => by
    rw [List.replicate_succ, List.range'_succ]
    simp only [rangesOf, List.map_cons, List.range'_one]
    rw [rangesOf_replicate_one (i + 1) m]

/-- The loop of the bubble-up rewrite computes exactly the spec-level
description: contiguous sequentially-indexed groups of the two length
structures, and the per-position intermediate sizes. -/
theorem bubbleLoop_eq {σ : Type} : ∀ (cRe eRe : List (List Nat))
    (X E : List σ) (i : Nat),
    bubbleLoop cRe eRe X E i =
      (rangesOf i (eLensStruct cRe eRe), rangesOf i (cLensStruct cRe eRe),
       sizesStruct cRe eRe X E)
  | [], eRe, X, E, i => rfl
  | c :: cs, eRe, X, E, i => by
    by_cases hc : c.length ≠ 1
    · simp only [bubbleLoop, if_pos hc, eLensStruct, cLensStruct, sizesStruct,
        bubbleLoop_eq cs (eRe.drop 1) (X.drop c.length) (E.drop 1) (i + c.length),
        Prod.mk.injEq]
      refine ⟨?_, ?_, trivial⟩
      · rw [rangesOf_append, rangesOf_replicate_one, sum_replicate_one]
      · rw [rangesOf_append]
        rfl
    · simp only [bubbleLoop, if_neg hc, eLensStruct, cLensStruct, sizesStruct,
        bubbleLoop_eq cs (eRe.drop 1) (X.drop 1) (E.drop (eRe.headD []).length)
          (i + (eRe.headD []).length),
        Prod.mk.injEq]
      refine ⟨?_, ?_, trivial⟩
      · rw [rangesOf_append]
        rfl
      · rw [rangesOf_append, rangesOf_replicate_one, sum_replicate_one]

theorem dimProd_eq_prod (l : List Dim) : dimProd l = l.prod := by
  rw [List.prod_eq_foldr]
  rfl

theorem map_length_rangesOf : ∀ (i : Nat) (ls : List Nat),
    (rangesOf i ls).map List.length = ls
  | _, [] => rfl
  | i, l :: ls => by
    simp [rangesOf, List.length_range', map_length_rangesOf]

theorem map_prod_splitBy_replicate_one {M : Type} [CommMonoid M] :
    ∀ (m : Nat) (xs : List M), m ≤ xs.length →
    (splitBy (List.replicate m 1) xs).map List.prod = xs.take m
  | 0, _, _ => rfl
  | m + 1, [], h => by simp at h
  | m + 1, x :: xs, h => by
    simp only [List.length_cons] at h
    simp only [List.replicate_succ, splitBy_cons, List.take_succ_cons,
      List.take_zero, List.drop_succ_cons, List.drop_zero, List.drop_one, List.tail_cons, List.headD_cons, List.map_cons,
      List.prod_cons, List.prod_nil, mul_one]
    rw [map_prod_splitBy_replicate_one m xs (by omega)]

/-- The combined shape bookkeeping of the bubble-up loop output, generic in
the size monoid (instantiated at `Nat` for runtime shapes and at `Dim` for
static types): the new expand's reassociation groups multiply the
intermediate sizes back to the collapse source's sizes, the new collapse's
groups multiply them to the original expand's result sizes, and the
intermediate rank is the total of either length structure. -/
theorem sizesStruct_shapes {M : Type} [CommMonoid M] :
    ∀ (cRe eRe : List (List Nat)) (X E : List M),
    cRe.length = eRe.length →
    (∀ p ∈ cRe.zip eRe, p.1.length = 1 ∨ p.2.length = 1) →
    (cRe.map List.length).sum = X.length →
    (eRe.map List.length).sum = E.length →
    (splitBy (cRe.map List.length) X).map List.prod
      = (splitBy (eRe.map List.length) E).map List.prod →
    (splitBy (eLensStruct cRe eRe) (sizesStruct cRe eRe X E)).map List.prod = X
    ∧ (splitBy (cLensStruct cRe eRe) (sizesStruct cRe eRe X E)).map List.prod = E
    ∧ (sizesStruct cRe eRe X E).length = (eLensStruct cRe eRe).sum
    ∧ (sizesStruct cRe eRe X E).length = (cLensStruct cRe eRe).sum
  | [], [], X, E, _, _, hsX, hsE, _ => by
    simp only [List.map_nil, List.sum_nil] at hsX hsE
    rw [List.length_eq_zero.mp hsX.symm, List.length_eq_zero.mp hsE.symm]
    exact ⟨rfl, rfl, rfl, rfl⟩
  | [], _ :: _, _, _, hlen, _, _, _, _ => by simp at hlen
  | _ :: _, [], _, _, hlen, _, _, _, _ => by simp at hlen
  | c :: cs, e :: es, X, E, hlen, hpar, hsX, hsE, hWF => by
    simp only [List.length_cons, Nat.succ_inj'] at hlen
    have hparh := hpar (c, e) (by simp)
    have hpart : ∀ p ∈ cs.zip es, p.1.length = 1 ∨ p.2.length = 1 := by
      intro p hp; exact hpar p (by simp [hp])
    simp only [List.map_cons, List.sum_cons] at hsX hsE
    simp only [List.map_cons, splitBy_cons, List.map_cons] at hWF
    rw [List.cons.injEq] at hWF
    obtain ⟨hHead, hTail⟩ := hWF
    by_cases hc : c.length ≠ 1
    · -- collapse-side position: the expand group is a singleton
      have he1 : e.length = 1 := by
        rcases hparh with h | h
        · exact absurd h hc
        · exact h
      obtain ⟨E0, E'⟩ : ∃ E0 E', E = E0 :: E' := by
        cases E with
        | nil => rw [he1] at hsE; simp at hsE
        | cons a l => exact ⟨a, l, rfl⟩
      obtain ⟨E', hEeq⟩ := E'
      subst hEeq
      have hmle : c.length ≤ X.length := by omega
      have ih := sizesStruct_shapes cs es (X.drop c.length) E' hlen hpart
        (by simp only [List.length_drop]; omega)
        (by rw [he1] at hsE; simp only [List.length_cons] at hsE; omega)
        (by
          rw [he1] at hTail
          simpa using hTail)
      obtain ⟨ih1, ih2, ih3, ih4⟩ := ih
      have hSdef : sizesStruct (c :: cs) (e :: es) X (E0 :: E')
          = X.take c.length ++ sizesStruct cs es (X.drop c.length) E' := by
        simp only [sizesStruct, if_pos hc]
        rfl
      have htlen : (X.take c.length).length = c.length := by
        simp only [List.length_take]
        omega
      have hE0 : (X.take c.length).prod = E0 := by
        rw [he1] at hHead
        simpa using hHead
      refine ⟨?_, ?_, ?_, ?_⟩
      · simp only [eLensStruct, if_pos hc, hSdef, List.drop_succ_cons, List.drop_zero, List.drop_one, List.tail_cons, List.headD_cons]
        rw [splitBy_append, sum_replicate_one, List.map_append]
        rw [map_prod_splitBy_replicate_one c.length _
            (by simp only [List.length_append, htlen]; omega),
          List.take_left' htlen, List.drop_left' htlen, ih1]
        exact List.take_append_drop c.length X
      · simp only [cLensStruct, if_pos hc, hSdef, List.drop_succ_cons, List.drop_zero, List.drop_one, List.tail_cons, List.headD_cons]
        simp only [List.cons_append, List.nil_append, splitBy_cons, List.map_cons]
        rw [List.take_left' htlen, hE0]
        have : (X.take c.length ++ sizesStruct cs es (X.drop c.length) E').drop
            ([c.length].sum) = sizesStruct cs es (X.drop c.length) E' := by
          simpa using List.drop_left' htlen
        simp only [List.sum_cons, List.sum_nil, Nat.add_zero] at this ⊢
        rw [List.drop_left' htlen, ih2]
      · simp only [eLensStruct, if_pos hc, hSdef, List.drop_succ_cons, List.drop_zero, List.drop_one, List.tail_cons, List.headD_cons,
          List.length_append, List.sum_append, sum_replicate_one, htlen, ih3]
      · simp only [cLensStruct, if_pos hc, hSdef, List.drop_succ_cons, List.drop_zero, List.drop_one, List.tail_cons, List.headD_cons,
          List.length_append, List.sum_append, List.sum_cons, List.sum_nil, htlen, ih4]
        omega
    · -- expand-side position: the collapse group is a singleton
      rw [Decidable.not_not] at hc
      have hnc : ¬(c.length ≠ 1) := fun h => h hc
      obtain ⟨X0, X'⟩ : ∃ X0 X', X = X0 :: X' := by
        cases X with
        | nil => rw [hc] at hsX; simp at hsX
        | cons a l => exact ⟨a, l, rfl⟩
      obtain ⟨X', hXeq⟩ := X'
      subst hXeq
      have hkle : e.length ≤ E.length := by omega
      have ih := sizesStruct_shapes cs es X' (E.drop e.length) hlen hpart
        (by rw [hc] at hsX; simp only [List.length_cons] at hsX; omega)
        (by simp only [List.length_drop]; omega)
        (by
          rw [hc] at hTail
          simpa using hTail)
      obtain ⟨ih1, ih2, ih3, ih4⟩ := ih
      have hSdef : sizesStruct (c :: cs) (e :: es) (X0 :: X') E
          = E.take e.length ++ sizesStruct cs es X' (E.drop e.length) := by
        simp only [sizesStruct, if_neg hnc, List.headD_cons, List.drop_one,
          List.tail_cons]
      have htlen : (E.take e.length).length = e.length := by
        simp only [List.length_take]
        omega
      have hX0 : (E.take e.length).prod = X0 := by
        rw [hc] at hHead
        simpa using hHead.symm
      refine ⟨?_, ?_, ?_, ?_⟩
      · simp only [eLensStruct, if_neg hnc, hSdef,
          List.drop_succ_cons, List.drop_zero, List.drop_one, List.tail_cons, List.headD_cons]
        simp only [List.cons_append, List.nil_append, splitBy_cons, List.map_cons]
        rw [List.take_left' htlen, hX0]
        rw [List.drop_left' htlen, ih1]
      · simp only [cLensStruct, if_neg hnc, hSdef,
          List.drop_succ_cons, List.drop_zero, List.drop_one, List.tail_cons, List.headD_cons]
        rw [splitBy_append, sum_replicate_one, List.map_append]
        rw [map_prod_splitBy_replicate_one e.length _
            (by simp only [List.length_append, htlen]; omega),
          List.take_left' htlen, List.drop_left' htlen, ih2]
        exact List.take_append_drop e.length E
      · simp only [eLensStruct, if_neg hnc, hSdef,
          List.drop_succ_cons, List.drop_zero, List.drop_one, List.tail_cons, List.headD_cons,
          List.length_append, List.sum_append, List.sum_cons, List.sum_nil,
          htlen, ih3]
        omega
      · simp only [cLensStruct, if_neg hnc, hSdef,
          List.drop_succ_cons, List.drop_zero, List.drop_one, List.tail_cons, List.headD_cons,
          List.length_append, List.sum_append, sum_replicate_one, htlen, ih4]

/-- Soundness of rule 4.5 (bubble up expand through parallel collapse): on a
match, the original expand-of-collapse reads element-wise exactly as the
rewritten collapse-of-expand built from the loop's reassociations and
intermediate sizes, at every index of the shared result shape. -/
theorem sound_rule45
    (x : TVal) (cRe eRe : List (List Nat)) (Eshape : List Nat)
    (hlen : cRe.length = eRe.length)
    (hpar : ∀ p ∈ cRe.zip eRe, p.1.length = 1 ∨ p.2.length = 1)
    (hsumX : (cRe.map List.length).sum = x.shape.length)
    (hsumE : (eRe.map List.length).sum = Eshape.length)
    (hWF : (splitBy (cRe.map List.length) x.shape).map List.prod
         = (splitBy (eRe.map List.length) Eshape).map List.prod)
    (idx : List Nat) (hidx : validIdx Eshape idx) :
    (expandSem (eRe.map List.length) Eshape
        (collapseSem (cRe.map List.length) x)).data idx
      = (collapseSem (((bubbleLoop cRe eRe x.shape Eshape 0).2.1).map List.length)
          (expandSem (((bubbleLoop cRe eRe x.shape Eshape 0).1).map List.length)
            ((bubbleLoop cRe eRe x.shape Eshape 0).2.2) x)).data idx := by
  simp only [bubbleLoop_eq, map_length_rangesOf]
  obtain ⟨hS1, hS2, hS3, hS4⟩ :=
    sizesStruct_shapes cRe eRe x.shape Eshape hlen hpar hsumX hsumE hWF
  set S := sizesStruct cRe eRe x.shape Eshape with hSdef
  set eL := eLensStruct cRe eRe with hELdef
  set cL := cLensStruct cRe eRe with hCLdef
  have hn : lin Eshape idx < Eshape.prod := lin_lt_prod hidx
  have hidx' : delin Eshape (lin Eshape idx) = idx := delin_lin hidx
  have hflatC : (splitBy (cRe.map List.length) x.shape).flatten = x.shape :=
    flatten_splitBy _ _ hsumX
  have hflatE : (splitBy (eRe.map List.length) Eshape).flatten = Eshape :=
    flatten_splitBy _ _ hsumE
  have hlensE : (splitBy (eRe.map List.length) Eshape).map List.length
      = eRe.map List.length := map_length_splitBy _ _ (le_of_eq hsumE)
  have hXprod : x.shape.prod = Eshape.prod := by
    have h1 := congrArg List.prod hWF
    rw [← List.prod_flatten, ← List.prod_flatten, hflatC, hflatE] at h1
    exact h1
  have hSflat : (splitBy cL S).flatten = S := flatten_splitBy _ _ hS4.symm
  have hSprod : S.prod = Eshape.prod := by
    have h2 := congrArg List.prod hS2
    rw [← List.prod_flatten, hSflat] at h2
    exact h2
  have hexpL := expand_index_eq (splitBy (eRe.map List.length) Eshape)
    (n := lin Eshape idx) (by rw [hflatE]; exact hn)
  rw [hflatE, hlensE, hidx', ← hWF] at hexpL
  have hcollL := collapse_index_eq (splitBy (cRe.map List.length) x.shape)
    (n := lin Eshape idx) (by rw [hflatC]; omega)
  rw [hflatC] at hcollL
  have hidxR : delin ((splitBy cL S).map List.prod) (lin Eshape idx) = idx := by
    rw [hS2, hidx']
  have hcollR := collapse_index_eq (splitBy cL S)
    (n := lin Eshape idx) (by rw [hSflat]; omega)
  rw [hSflat, hidxR] at hcollR
  have hSlensE : (splitBy eL S).map List.length = eL :=
    map_length_splitBy _ _ (le_of_eq hS3.symm)
  have hSflatE : (splitBy eL S).flatten = S := flatten_splitBy _ _ hS3.symm
  have hexpR := expand_index_eq (splitBy eL S)
    (n := lin Eshape idx) (by rw [hSflatE]; omega)
  rw [hSflatE, hSlensE, hS1] at hexpR
  simp only [expandSem_data, collapseSem_data, expandSem_shape,
    collapseSem_shape]
  rw [hexpL, hcollL, hcollR, hexpR]

theorem map_getD_range' {α : Type} : ∀ (l s : Nat) (xs : List α) (d : α),
    s + l ≤ xs.length →
    (List.range' s l).map (fun i => xs.getD i d) = (xs.drop s).take l
  | 0, s, xs, d, _ => by simp
  | l + 1, s, xs, d, h => by
    have hs : s < xs.length := by omega
    rw [List.range'_succ]
    simp only [List.map_cons]
    rw [map_getD_range' l (s + 1) xs d (by omega)]
    simp only [List.getD_eq_getElem?_getD, List.getElem?_eq_getElem hs,
      Option.getD_some]
    conv_rhs => rw [List.drop_eq_getElem_cons hs, List.take_succ_cons]

theorem inferCollapsed_rangesOf : ∀ (ls : List Nat) (s : Nat) (sh : List Dim),
    s + ls.sum ≤ sh.length →
    (rangesOf s ls).map (fun g => dimProd (g.map (fun i => sh.getD i (Dim.static 1))))
      = (splitBy ls (sh.drop s)).map dimProd
  | [], s, sh, _ => rfl
  | l :: ls, s, sh, h => by
    simp only [List.sum_cons] at h
    simp only [rangesOf, splitBy_cons, List.map_cons]
    rw [map_getD_range' l s sh (Dim.static 1) (by omega)]
    rw [inferCollapsed_rangesOf ls (s + l) sh (by omega), List.drop_drop]

/-- `map` commutes with the intermediate-size construction. -/
theorem map_sizesStruct {σ τ : Type} (f : σ → τ) :
    ∀ (cRe eRe : List (List Nat)) (X E : List σ),
    (sizesStruct cRe eRe X E).map f = sizesStruct cRe eRe (X.map f) (E.map f)
  | [], _, _, _ => rfl
  | c :: cs, es, X, E => by
    by_cases hc : c.length ≠ 1
    · simp only [sizesStruct, if_pos hc, List.map_append, List.map_take,
        List.map_drop]
      rw [map_sizesStruct f cs (es.drop 1) (X.drop c.length) (E.drop 1),
        List.map_drop, List.map_drop]
    · simp only [sizesStruct, if_neg hc, List.map_append, List.map_take,
        List.map_drop]
      rw [map_sizesStruct f cs (es.drop 1) (X.drop 1)
          (E.drop (es.headD []).length),
        List.map_drop, List.map_drop]

theorem ofrToDim_getMixedSizesFrom : ∀ (n : Nat) (sh : List Dim),
    ((sh.enumFrom n).map (fun p =>
      match p.2 with
      | Dim.static k => OFR.static k
      | Dim.dynamic => OFR.value p.1)).map ofrToDim = sh
  | _, [] => rfl
  | n, d :: sh => by
    simp only [List.enumFrom_cons, List.map_cons]
    rw [ofrToDim_getMixedSizesFrom (n + 1) sh]
    cases d <;> rfl

theorem ofrToDim_getMixedSizes (sh : List Dim) :
    (getMixedSizes sh).map ofrToDim = sh := by
  have h := ofrToDim_getMixedSizesFrom 0 sh
  simpa [getMixedSizes, List.enum] using h

/-- Type-level correctness of the bubble-up loop: the collapsed type inferred
from the intermediate type and the new collapse reassociation is exactly the
original expand's result type. -/
theorem bubble_type_eq (cRe eRe : List (List Nat)) (Xd Ed : List Dim) (el : Nat)
    (hlen : cRe.length = eRe.length)
    (hpar : ∀ p ∈ cRe.zip eRe, p.1.length = 1 ∨ p.2.length = 1)
    (hsumX : (cRe.map List.length).sum = Xd.length)
    (hsumE : (eRe.map List.length).sum = Ed.length)
    (hWF : (splitBy (cRe.map List.length) Xd).map List.prod
         = (splitBy (eRe.map List.length) Ed).map List.prod) :
    inferCollapsedType ⟨sizesStruct cRe eRe Xd Ed, el⟩
        (rangesOf 0 (cLensStruct cRe eRe)) = ⟨Ed, el⟩ := by
  obtain ⟨hS1, hS2, hS3, hS4⟩ :=
    sizesStruct_shapes cRe eRe Xd Ed hlen hpar hsumX hsumE hWF
  have hd : dimProd = fun (l : List Dim) => l.prod := funext dimProd_eq_prod
  unfold inferCollapsedType
  simp only []
  rw [inferCollapsed_rangesOf _ _ _ (by simp only [Nat.zero_add]; omega)]
  rw [List.drop_zero, hd, hS2]

theorem zip_any_false_iff : ∀ (eRe cRe : List (List Nat)),
    eRe.length = cRe.length →
    (((eRe.zip cRe).any fun p =>
        decide (p.2.length ≠ 1) && decide (p.1.length ≠ 1)) = false
      ↔ ∀ p ∈ cRe.zip eRe, p.1.length = 1 ∨ p.2.length = 1)
  | [], [], _ => by simp
  | e :: es, c :: cs, h => by
    simp only [List.length_cons, Nat.succ_inj'] at h
    simp only [List.zip_cons_cons, List.any_cons, Bool.or_eq_false_iff,
      Bool.and_eq_false_iff, List.forall_mem_cons]
    rw [zip_any_false_iff es cs h]
    constructor
    · rintro ⟨h1, h2⟩
      refine ⟨?_, h2⟩
      rcases h1 with h1 | h1 <;> simp only [decide_eq_false_iff_not,
        Decidable.not_not] at h1
      · exact Or.inl h1
      · exact Or.inr h1
    · rintro ⟨h1, h2⟩
      refine ⟨?_, h2⟩
      rcases h1 with h1 | h1
      · exact Or.inl (by simp [h1])
      · exact Or.inr (by simp [h1])
  | [], _ :: _, h => by simp at h
  | _ :: _, [], h => by simp at h

theorem parallel_getD_iff : ∀ (cRe eRe : List (List Nat)),
    cRe.length = eRe.length →
    ((∀ p ∈ cRe.zip eRe, p.1.length = 1 ∨ p.2.length = 1)
      ↔ ∀ j, j < cRe.length →
          (cRe.getD j []).length = 1 ∨ (eRe.getD j []).length = 1)
  | [], [], _ => by simp
  | c :: cs, e :: es, h => by
    simp only [List.length_cons, Nat.succ_inj'] at h
    simp only [List.zip_cons_cons, List.forall_mem_cons, List.length_cons]
    rw [parallel_getD_iff cs es h]
    constructor
    · rintro ⟨h1, h2⟩ j hj
      cases j with
      | zero => simpa using h1
      | succ j' => simpa using h2 j' (by omega)
    · intro h1
      refine ⟨by simpa using h1 0 (by omega), fun j hj => ?_⟩
      simpa using h1 (j + 1) (by omega)
  | [], _ :: _, h => by simp at h
  | _ :: _, [], h => by simp at h

theorem flatten_rangesOf : ∀ (i : Nat) (ls : List Nat),
    (rangesOf i ls).flatten = List.range' i ls.sum
  | _, [] => rfl
  | i, l :: ls => by
    simp only [rangesOf, List.flatten_cons, List.sum_cons]
    rw [flatten_rangesOf (i + l) ls]
    have h := List.range'_append i l ls.sum 1
    simp only [Nat.one_mul] at h
    rw [Nat.add_comm ls.sum l] at h
    exact h

theorem rangesOf_groups : ∀ (i : Nat) (ls : List Nat),
    (∀ l ∈ ls, 0 < l) →
    ∀ g ∈ rangesOf i ls, ∃ s l, 0 < l ∧ g = List.range' s l
  | _, [], _ => by intro g hg; simp [rangesOf] at hg
  | i, l :: ls, hpos => by
    intro g hg
    simp only [rangesOf, List.mem_cons] at hg
    rcases hg with hg | hg
    · exact ⟨i, l, hpos l (by simp), hg⟩
    · exact rangesOf_groups (i + l) ls (fun a ha => hpos a (by simp [ha])) g hg

theorem eLensStruct_pos : ∀ (cRe eRe : List (List Nat)),
    cRe.length = eRe.length → (∀ g ∈ eRe, g ≠ []) →
    ∀ l ∈ eLensStruct cRe eRe, 0 < l
  | [], [], _, _ => by intro l hl; simp [eLensStruct] at hl
  | c :: cs, e :: es, h, hne => by
    simp only [List.length_cons, Nat.succ_inj'] at h
    intro l hl
    by_cases hc : c.length ≠ 1
    · simp only [eLensStruct, if_pos hc, List.mem_append, List.headD_cons,
        List.drop_one, List.tail_cons] at hl
      rcases hl with hl | hl
      · have := List.eq_of_mem_replicate hl
        omega
      · exact eLensStruct_pos cs es h (fun g hg => hne g (by simp [hg])) l hl
    · simp only [eLensStruct, if_neg hc, List.mem_append, List.headD_cons,
        List.drop_one, List.tail_cons, List.mem_singleton] at hl
      rcases hl with hl | hl
      · subst hl
        have : e ≠ [] := hne e (by simp)
        cases e with
        | nil => exact absurd rfl this
        | cons a l' => simp
      · exact eLensStruct_pos cs es h (fun g hg => hne g (by simp [hg])) l hl
  | [], _ :: _, h, _ => by simp at h
  | _ :: _, [], h, _ => by simp at h

theorem cLensStruct_pos : ∀ (cRe eRe : List (List Nat)),
    (∀ g ∈ cRe, g ≠ []) →
    ∀ l ∈ cLensStruct cRe eRe, 0 < l
  | [], _, _ => by intro l hl; simp [cLensStruct] at hl
  | c :: cs, es, hnc => by
    intro l hl
    by_cases hc : c.length ≠ 1
    · simp only [cLensStruct, if_pos hc, List.mem_append, List.mem_singleton] at hl
      rcases hl with hl | hl
      · subst hl
        have : c ≠ [] := hnc c (by simp)
        cases c with
        | nil => exact absurd rfl this
        | cons a l' => simp
      · exact cLensStruct_pos cs (es.drop 1) (fun g hg => hnc g (by simp [hg])) l hl
    · simp only [cLensStruct, if_neg hc, List.mem_append] at hl
      rcases hl with hl | hl
      · have := List.eq_of_mem_replicate hl
        omega
      · exact cLensStruct_pos cs (es.drop 1) (fun g hg => hnc g (by simp [hg])) l hl

/-- Length-only version of the loop bookkeeping: the intermediate rank is the
total of either group-length structure. -/
theorem sizesStruct_length {σ : Type} : ∀ (cRe eRe : List (List Nat))
    (X E : List σ),
    cRe.length = eRe.length →
    (∀ p ∈ cRe.zip eRe, p.1.length = 1 ∨ p.2.length = 1) →
    (cRe.map List.length).sum = X.length →
    (eRe.map List.length).sum = E.length →
    (sizesStruct cRe eRe X E).length = (eLensStruct cRe eRe).sum
    ∧ (sizesStruct cRe eRe X E).length = (cLensStruct cRe eRe).sum
  | [], [], X, E, _, _, _, _ => by simp [sizesStruct, eLensStruct, cLensStruct]
  | c :: cs, e :: es, X, E, hlen, hpar, hsX, hsE => by
    simp only [List.length_cons, Nat.succ_inj'] at hlen
    have hparh := hpar (c, e) (by simp)
    have hpart : ∀ p ∈ cs.zip es, p.1.length = 1 ∨ p.2.length = 1 := by
      intro p hp; exact hpar p (by simp [hp])
    simp only [List.map_cons, List.sum_cons] at hsX hsE
    by_cases hc : c.length ≠ 1
    · have he1 : e.length = 1 := by
        rcases hparh with h | h
        · exact absurd h hc
        · exact h
      obtain ⟨ih1, ih2⟩ := sizesStruct_length cs es (X.drop c.length) (E.drop 1)
        hlen hpart
        (by simp only [List.length_drop]; omega)
        (by simp only [List.length_drop]; omega)
      rw [List.drop_one] at ih1 ih2
      constructor
      · simp only [sizesStruct, eLensStruct, if_pos hc, List.headD_cons,
          List.drop_one, List.tail_cons, List.length_append, List.sum_append,
          sum_replicate_one, List.length_take, ih1]
        omega
      · simp only [sizesStruct, cLensStruct, if_pos hc, List.headD_cons,
          List.drop_one, List.tail_cons, List.length_append, List.sum_append,
          List.sum_cons, List.sum_nil, List.length_take, ih2]
        omega
    · obtain ⟨ih1, ih2⟩ := sizesStruct_length cs es (X.drop 1) (E.drop e.length)
        hlen hpart
        (by simp only [List.length_drop]; omega)
        (by simp only [List.length_drop]; omega)
      rw [List.drop_one] at ih1 ih2
      constructor
      · simp only [sizesStruct, eLensStruct, if_neg hc, List.headD_cons,
          List.drop_one, List.tail_cons, List.length_append, List.sum_append,
          List.sum_cons, List.sum_nil, List.length_take, ih1]
        omega
      · simp only [sizesStruct, cLensStruct, if_neg hc, List.headD_cons,
          List.drop_one, List.tail_cons, List.length_append, List.sum_append,
          sum_replicate_one, List.length_take, ih2]
        omega
  | [], _ :: _, _, _, hlen, _, _, _ => by simp at hlen
  | _ :: _, [], _, _, hlen, _, _, _ => by simp at hlen

/-- C1: For every rewrite rule in the file (4.1 fold expand-after-extract,
4.2 fold collapse-into-extract, 4.3 fold collapse-into-insert, 4.4 fold
expand-into-insert, 4.5 bubble-up) and every valid input operation pair on
which the rule matches, the element-wise function computed by the pre-rewrite
pair of operations equals the element-wise function computed by the
post-rewrite operation(s), at every index of the shared result shape.
(4.1: expanding a rank-reduced extract back to the full slice sizes equals
the non-reducing extract; 4.2: collapsing a rank-reduced extract, with the
greedy unit-dimension mask check of the match, equals the single extract
rank-reduced by the composed mask; 4.3: inserting a collapse whose source has
exactly the insert's sizes equals inserting that source without rank
reduction; 4.4: inserting an expand that only adds unit dimensions, per the
greedy mask check of the match, equals inserting its source with the composed
mask; 4.5: the expand-of-collapse equals the collapse-of-expand built by
`bubbleLoop`.) -/
theorem C1_soundness_of_all_rules :
    (∀ (x : TVal) (offs szs strs : List Nat) (keep : List Bool) (eLens : List Nat),
      keep.length = szs.length → dropsOnlyOnes keep szs →
      eLens.sum = szs.length →
      (splitBy eLens szs).map List.prod = filterKeep keep szs →
      ∀ idx, validIdx szs idx →
      (expandSem eLens szs (reduceSem keep (extractSliceSem offs szs strs x))).data idx
        = (extractSliceSem offs szs strs x).data idx)
    ∧ (∀ (x : TVal) (offs szs strs : List Nat) (keep0 kk : List Bool)
        (cLens : List Nat),
      keep0.length = szs.length → dropsOnlyOnes keep0 szs →
      cLens.sum = (filterKeep keep0 szs).length →
      computeRankReductionMask ((filterKeep keep0 szs).map Dim.static)
        (((splitBy cLens (filterKeep keep0 szs)).map List.prod).map Dim.static)
          = some kk →
      ∀ idx, validIdx ((splitBy cLens (filterKeep keep0 szs)).map List.prod) idx →
      (collapseSem cLens (reduceSem keep0 (extractSliceSem offs szs strs x))).data idx
        = (reduceSem (maskCompose keep0 kk)
            (extractSliceSem offs szs strs x)).data idx)
    ∧ (∀ (x dest : TVal) (offs szs strs : List Nat) (cLens : List Nat)
        (keepIns : List Bool),
      x.shape = szs → cLens.sum = szs.length →
      keepIns.length = szs.length → dropsOnlyOnes keepIns szs →
      filterKeep keepIns szs = (splitBy cLens szs).map List.prod →
      ∀ idx, validIdx dest.shape idx →
      (insertSliceSem keepIns offs szs strs (collapseSem cLens x) dest).data idx
        = (insertSliceSem (List.replicate szs.length true) offs szs strs x dest).data idx)
    ∧ (∀ (x dest : TVal) (offs szs strs : List Nat) (eLens Eshape : List Nat)
        (keepIns kE : List Bool),
      keepIns.length = szs.length → dropsOnlyOnes keepIns szs →
      filterKeep keepIns szs = Eshape →
      eLens.sum = Eshape.length →
      (splitBy eLens Eshape).map List.prod = x.shape →
      computeRankReductionMask (Eshape.map Dim.static)
        (x.shape.map Dim.static) = some kE →
      ∀ idx, validIdx dest.shape idx →
      (insertSliceSem keepIns offs szs strs (expandSem eLens Eshape x) dest).data idx
        = (insertSliceSem (maskCompose keepIns kE) offs szs strs x dest).data idx)
    ∧ (∀ (x : TVal) (cRe eRe : List (List Nat)) (Eshape : List Nat),
      cRe.length = eRe.length →
      (∀ p ∈ cRe.zip eRe, p.1.length = 1 ∨ p.2.length = 1) →
      (cRe.map List.length).sum = x.shape.length →
      (eRe.map List.length).sum = Eshape.length →
      (splitBy (cRe.map List.length) x.shape).map List.prod
        = (splitBy (eRe.map List.length) Eshape).map List.prod →
      ∀ idx, validIdx Eshape idx →
      (expandSem (eRe.map List.length) Eshape
          (collapseSem (cRe.map List.length) x)).data idx
        = (collapseSem (((bubbleLoop cRe eRe x.shape Eshape 0).2.1).map List.length)
            (expandSem (((bubbleLoop cRe eRe x.shape Eshape 0).1).map List.length)
              ((bubbleLoop cRe eRe x.shape Eshape 0).2.2) x)).data idx) :=
  ⟨sound_rule41, sound_rule42, sound_rule43, sound_rule44, sound_rule45⟩

/-- Witness for C1: the spec's 4.1 example — extract offsets [2,0,0], sizes
[4,1,4], strides [1,1,1] from a [8,1,8] tensor, rank-reduced to [4,4],
expanded back to [4,1,4] — read at index [1,0,2], equals the direct
non-reducing extract. -/
theorem C1_soundness_witness :
    (expandSem [1, 2] [4, 1, 4] (reduceSem [true, false, true]
        (extractSliceSem [2, 0, 0] [4, 1, 4] [1, 1, 1] exTV))).data [1, 0, 2]
      = (extractSliceSem [2, 0, 0] [4, 1, 4] [1, 1, 1] exTV).data [1, 0, 2] :=
  C1_soundness_of_all_rules.1 exTV [2, 0, 0] [4, 1, 4] [1, 1, 1]
    [true, false, true] [1, 2] (by decide) (by decide) (by decide) (by decide)
    [1, 0, 2] (by decide)

/-- C2: The expand-after-extract rule matches an ExpandShape whose source is
produced by an ExtractSlice if and only if the non-reducing slice type
inferred from the extract's source type and its static offsets, sizes and
strides equals the expand's result type exactly; on match it replaces the
expand's result with a single new ExtractSlice on the original source with
the same mixed offsets, sizes and strides, whose result type is the
non-reducing type. -/
theorem C2_expand_of_extract_match_iff (e : ExpandShapeOp) (s : Value)
    (offs szs strs : List OFR) (t : RTT) (u : Nat)
    (hsrc : e.src = Value.extractSliceV s offs szs strs t u) :
    (((FoldExpandOfRankReducingExtract e).2.isSome = true) ↔
      ExtractSliceOp.inferResultType s.type (offs.map ofrToDim)
        (szs.map ofrToDim) (strs.map ofrToDim) = e.resultType)
    ∧ ∀ r, (FoldExpandOfRankReducingExtract e).2 = some r →
        r = ⟨s, offs, szs, strs,
          ExtractSliceOp.inferResultType s.type (offs.map ofrToDim)
            (szs.map ofrToDim) (strs.map ofrToDim)⟩ := by
  have hdef : getDefiningExtractSlice e.src = some ⟨s, offs, szs, strs, t⟩ := by
    rw [hsrc]
    rfl
  unfold FoldExpandOfRankReducingExtract
  rw [hdef]
  by_cases hty : ExtractSliceOp.inferResultType s.type (offs.map ofrToDim)
      (szs.map ofrToDim) (strs.map ofrToDim) = e.resultType
  · simp [hty]
  · simp [hty]

/-- Witness for C2: the spec's 4.1 example matches. -/
theorem C2_expand_of_extract_witness :
    ((FoldExpandOfRankReducingExtract exExpand414).2.isSome = true) :=
  (C2_expand_of_extract_match_iff exExpand414 exSrc818
    [OFR.static 2, OFR.static 0, OFR.static 0]
    [OFR.static 4, OFR.static 1, OFR.static 4]
    [OFR.static 1, OFR.static 1, OFR.static 1]
    ⟨[Dim.static 4, Dim.static 4], 0⟩ 1 rfl).1.mpr (by decide)

/-- C3: The collapse-into-insert rule matches an insert whose source is
produced by a CollapseShape if and only if the tensor type built from the
insert's static sizes and the destination's element type equals the
collapse's source type exactly; on match it replaces the insert with a new
insert of the same kind whose source is the collapse's own source, with the
same dest, offsets, sizes, and strides; and the rule behaves identically for
the ordinary InsertSlice and ParallelInsertSlice kinds (one algorithm whose
operation-kind parameter is inert, both instantiations registered). -/
theorem C3_insert_of_collapse (i : InsertSliceOp) (s : Value)
    (re : List (List Nat)) (t : RTT) (u : Nat)
    (hsrc : i.source = Value.collapseShapeV s re t u) :
    (((FoldInsertOfRankReducingInsert i.kind i).2.isSome = true) ↔
      (⟨i.sizes.map ofrToDim, i.dest.type.elem⟩ : RTT) = s.type)
    ∧ (∀ r, (FoldInsertOfRankReducingInsert i.kind i).2 = some r →
        r = ⟨i.kind, s, i.dest, i.offsets, i.sizes, i.strides⟩)
    ∧ (∀ k₁ k₂ (j : InsertSliceOp),
        FoldInsertOfRankReducingInsert k₁ j = FoldInsertOfRankReducingInsert k₂ j)
    ∧ PatternId.foldInsertOfRankReducingInsert InsertKind.insertSlice
        ∈ populateReassociativeReshapeFoldingPatterns
    ∧ PatternId.foldInsertOfRankReducingInsert InsertKind.parallelInsertSlice
        ∈ populateReassociativeReshapeFoldingPatterns := by
  have hdef : getDefiningCollapseShape i.source = some ⟨s, re, t⟩ := by
    rw [hsrc]
    rfl
  refine ⟨?_, ?_, fun _ _ _ => rfl, by decide, by decide⟩
  · unfold FoldInsertOfRankReducingInsert
    rw [hdef]
    by_cases hty : (⟨i.sizes.map ofrToDim, i.dest.type.elem⟩ : RTT) = s.type
    · simp [hty]
    · simp [hty]
  · unfold FoldInsertOfRankReducingInsert
    rw [hdef]
    by_cases hty : (⟨i.sizes.map ofrToDim, i.dest.type.elem⟩ : RTT) = s.type
    · simp [hty]
    · simp [hty]

/-- Witness for C3: the example insert-of-collapse matches and both
instantiations are registered. -/
theorem C3_insert_of_collapse_witness :
    ((FoldInsertOfRankReducingInsert exInsertOfCollapse.kind
        exInsertOfCollapse).2.isSome = true) :=
  (C3_insert_of_collapse exInsertOfCollapse
    (Value.fromElsewhere ⟨[Dim.static 4, Dim.static 1, Dim.static 4], 0⟩ 1)
    [[0, 1], [2]] ⟨[Dim.static 4, Dim.static 4], 0⟩ 1 rfl).1.mpr (by decide)

/-- C4: When the expand-into-insert rule matches (the insert's source is
produced by an ExpandShape all of whose added dimensions have static size 1,
per the rank-reduction compatibility check), the rewrite changes only the
insert's source operand, reassigning it to the expand's source; the insert
operation's identity, destination, offsets, sizes, strides, and result type
are all unchanged. -/
theorem C4_padding_expand_in_place (k : InsertKind) (i : InsertSliceOp)
    (xop : ExpandShapeOp)
    (hsrc : getDefiningExpandShape i.source = some xop)
    (hred : isRankReducedType xop.resultType xop.src.type = true) :
    (FoldPaddingExpandIntoInsert k i).2 = some { i with source := xop.src }
    ∧ ∀ o, (FoldPaddingExpandIntoInsert k i).2 = some o →
        o.kind = i.kind ∧ o.dest = i.dest ∧ o.offsets = i.offsets
        ∧ o.sizes = i.sizes ∧ o.strides = i.strides
        ∧ o.destType = i.destType ∧ o.source = xop.src := by
  have h1 : (FoldPaddingExpandIntoInsert k i).2 = some { i with source := xop.src } := by
    unfold FoldPaddingExpandIntoInsert
    rw [hsrc]
    simp [hred]
  refine ⟨h1, fun o ho => ?_⟩
  rw [h1] at ho
  obtain rfl : { i with source := xop.src } = o := Option.some_inj.mp ho
  exact ⟨rfl, rfl, rfl, rfl, rfl, rfl, rfl⟩

/-- Witness for C4: the example padding expand is folded in place, leaving
everything but the source untouched. -/
theorem C4_padding_expand_witness :
    (FoldPaddingExpandIntoInsert InsertKind.insertSlice exInsertOfExpand).2
      = some { exInsertOfExpand with
          source := Value.fromElsewhere ⟨[Dim.static 4], 0⟩ 1 } :=
  (C4_padding_expand_in_place InsertKind.insertSlice exInsertOfExpand
    ⟨Value.fromElsewhere ⟨[Dim.static 4], 0⟩ 1, [[0, 1]],
     [OFR.static 1, OFR.static 4], ⟨[Dim.static 1, Dim.static 4], 0⟩⟩
    rfl (by decide)).1

/-- C5: The bubble-up rule matches an ExpandShape fed by a CollapseShape if
and only if the two reshapes are parallel: for every position j, pairing the
collapse's j-th reassociation group with the expand's j-th group, at least
one of the two groups has size exactly 1; it reports no-match whenever some
position has both group sizes greater than 1. -/
theorem C5_bubble_match_iff (e : ExpandShapeOp) (c : CollapseShapeOp)
    (hsrc : getDefiningCollapseShape e.src = some c)
    (hlen : c.reassociation.length = e.reassociation.length) :
    (((BubbleUpExpandThroughParallelCollapse e).2.isSome = true) ↔
      ∀ j, j < c.reassociation.length →
        (c.reassociation.getD j []).length = 1
        ∨ (e.reassociation.getD j []).length = 1)
    ∧ ((∃ j, j < c.reassociation.length ∧
          1 < (c.reassociation.getD j []).length
          ∧ 1 < (e.reassociation.getD j []).length) →
        (BubbleUpExpandThroughParallelCollapse e).2 = none) := by
  have hiff : ((e.reassociation.zip c.reassociation).any
      (fun p => decide (p.2.length ≠ 1) && decide (p.1.length ≠ 1)) = false)
      ↔ ∀ j, j < c.reassociation.length →
          (c.reassociation.getD j []).length = 1
          ∨ (e.reassociation.getD j []).length = 1 :=
    (zip_any_false_iff e.reassociation c.reassociation hlen.symm).trans
      (parallel_getD_iff c.reassociation e.reassociation hlen)
  cases hany : (e.reassociation.zip c.reassociation).any
      (fun p => decide (p.2.length ≠ 1) && decide (p.1.length ≠ 1)) with
  | false =>
    constructor
    · unfold BubbleUpExpandThroughParallelCollapse
      rw [hsrc]
      simp only [hany, Bool.false_eq_true, if_false, Option.isSome_some,
        true_iff]
      exact hiff.mp hany
    · rintro ⟨j, hj, hcj, hej⟩
      have := hiff.mp hany j hj
      omega
  | true =>
    have hnot : ¬ ∀ j, j < c.reassociation.length →
        (c.reassociation.getD j []).length = 1
        ∨ (e.reassociation.getD j []).length = 1 := by
      intro hP
      rw [← hiff] at hP
      rw [hP] at hany
      exact Bool.false_ne_true hany
    constructor
    · unfold BubbleUpExpandThroughParallelCollapse
      rw [hsrc]
      simp only [hany, if_true, Option.isSome_none, Bool.false_eq_true,
        false_iff]
      exact hnot
    · intro _
      unfold BubbleUpExpandThroughParallelCollapse
      rw [hsrc]
      dsimp only
      rw [if_pos hany]

/-- Witness for C5: the spec's 4.5 example is parallel and matches. -/
theorem C5_bubble_match_witness :
    ((BubbleUpExpandThroughParallelCollapse exExpand34).2.isSome = true) :=
  (C5_bubble_match_iff exExpand34 ⟨Value.fromElsewhere ⟨[Dim.static 12], 0⟩ 1,
      [[0]], ⟨[Dim.static 12], 0⟩⟩ rfl rfl).1.mpr (by decide)

/-- C6: In the bubble-up rule's rewrite, positions are processed in the
original left-to-right dimension order with sequentially assigned
intermediate indices: the loop output is exactly the spec's per-position
description (at a collapse-singleton position the new expand gets one group
of the expand group's size with the expand's declared output sizes and the
new collapse gets that many singleton groups; at a non-singleton collapse
position the new expand gets that many singleton groups with the collapse
source's own sizes and the new collapse gets one group of that size), and
both new reassociations are non-empty, contiguous, order-preserving,
covering partitions of the intermediate shape's index range. -/
theorem C6_bubble_partitions (cRe eRe : List (List Nat)) (X E : List OFR)
    (hlen : cRe.length = eRe.length)
    (hpar : ∀ p ∈ cRe.zip eRe, p.1.length = 1 ∨ p.2.length = 1)
    (hnc : ∀ g ∈ cRe, g ≠ []) (hne : ∀ g ∈ eRe, g ≠ [])
    (hsX : (cRe.map List.length).sum = X.length)
    (hsE : (eRe.map List.length).sum = E.length) :
    bubbleLoop cRe eRe X E 0
      = (rangesOf 0 (eLensStruct cRe eRe), rangesOf 0 (cLensStruct cRe eRe),
         sizesStruct cRe eRe X E)
    ∧ ((bubbleLoop cRe eRe X E 0).1.flatten
        = List.range' 0 ((bubbleLoop cRe eRe X E 0).2.2).length
      ∧ (bubbleLoop cRe eRe X E 0).2.1.flatten
        = List.range' 0 ((bubbleLoop cRe eRe X E 0).2.2).length)
    ∧ (∀ g ∈ (bubbleLoop cRe eRe X E 0).1, ∃ s l, 0 < l ∧ g = List.range' s l)
    ∧ (∀ g ∈ (bubbleLoop cRe eRe X E 0).2.1,
        ∃ s l, 0 < l ∧ g = List.range' s l) := by
  obtain ⟨hL1, hL2⟩ := sizesStruct_length cRe eRe X E hlen hpar hsX hsE
  refine ⟨bubbleLoop_eq cRe eRe X E 0, ⟨?_, ?_⟩, ?_, ?_⟩
  · simp only [bubbleLoop_eq cRe eRe X E 0]
    rw [flatten_rangesOf, hL1]
  · simp only [bubbleLoop_eq cRe eRe X E 0]
    rw [flatten_rangesOf, hL2]
  · simp only [bubbleLoop_eq cRe eRe X E 0]
    exact rangesOf_groups 0 _ (eLensStruct_pos cRe eRe hlen hne)
  · simp only [bubbleLoop_eq cRe eRe X E 0]
    exact rangesOf_groups 0 _ (cLensStruct_pos cRe eRe hnc)

/-- Witness for C6: the spec's 4.5 example — collapse group [[0]] (size 1)
against expand group [[0,1]] (size 2) — produces the expand reassociation
[[0,1]], the collapse reassociation [[0],[1]] and intermediate sizes [3,4]. -/
theorem C6_bubble_partitions_witness :
    bubbleLoop [[0]] [[0, 1]] [OFR.static 12] [OFR.static 3, OFR.static 4] 0
      = ([[0, 1]], [[0], [1]], [OFR.static 3, OFR.static 4]) :=
  ((C6_bubble_partitions [[0]] [[0, 1]] [OFR.static 12]
    [OFR.static 3, OFR.static 4] rfl (by decide) (by decide) (by decide)
    (by decide) (by decide)).1).trans (by decide)

/-- Counterexample to C7 as stated: on a multi-use extract the rule fails,
but the failure is silent (`return failure()`, no `notifyMatchFailure`),
contradicting the claim that the multi-use failure carries a diagnostic. -/
theorem C7_multi_use_silent_counterexample :
    (FoldUnPaddingCollapseIntoExtract exCollapseMultiUse).2 = none
    ∧ (FoldUnPaddingCollapseIntoExtract exCollapseMultiUse).1 = [] := by
  decide

/-- C7 (amended): The collapse-into-extract rule fails exactly when its
producing ExtractSlice is absent, the extract has more than one use, or the
collapse removes a dimension that is not statically size 1; the
real-merging failure is reported with a diagnostic reason, while the
absent-extract and multi-use failures are silent. -/
theorem C7_collapse_into_extract_failures (c : CollapseShapeOp) :
    ((FoldUnPaddingCollapseIntoExtract c).2 = none ↔
      (getDefiningExtractSlice c.src = none ∨ c.src.uses ≠ 1
        ∨ isRankReducedType c.src.type c.resultType = false))
    ∧ ((getDefiningExtractSlice c.src).isSome = true → c.src.uses = 1 →
        isRankReducedType c.src.type c.resultType = false →
        (FoldUnPaddingCollapseIntoExtract c).1
          = [RAction.notifyMatchFailure MatchDiag.expectedUnpaddingCollapse])
    ∧ ((getDefiningExtractSlice c.src = none ∨ c.src.uses ≠ 1) →
        (FoldUnPaddingCollapseIntoExtract c).1 = []) := by
  rcases hdef : getDefiningExtractSlice c.src with _ | x
  · refine ⟨?_, ?_, ?_⟩
    · unfold FoldUnPaddingCollapseIntoExtract
      rw [hdef]
      simp
    · intro habs
      simp at habs
    · intro _
      unfold FoldUnPaddingCollapseIntoExtract
      rw [hdef]
  · by_cases huse : c.src.uses = 1
    · by_cases hred : isRankReducedType c.src.type c.resultType = true
      · refine ⟨?_, ?_, ?_⟩
        · unfold FoldUnPaddingCollapseIntoExtract
          rw [hdef]
          simp [huse, hred, hdef]
        · intro _ _ hfalse
          rw [hred] at hfalse
          exact absurd hfalse (by simp)
        · rintro (habs | habs)
          · exact absurd habs (by simp)
          · exact absurd huse habs
      · have hred' : isRankReducedType c.src.type c.resultType = false := by
          cases h : isRankReducedType c.src.type c.resultType
          · rfl
          · exact absurd h hred
        refine ⟨?_, ?_, ?_⟩
        · unfold FoldUnPaddingCollapseIntoExtract
          rw [hdef]
          simp [huse, hred']
        · intro _ _ _
          unfold FoldUnPaddingCollapseIntoExtract
          rw [hdef]
          simp [huse, hred']
        · rintro (habs | habs)
          · exact absurd habs (by simp)
          · exact absurd huse habs
    · refine ⟨?_, ?_, ?_⟩
      · unfold FoldUnPaddingCollapseIntoExtract
        rw [hdef]
        simp [huse]
      · intro _ huse1
        exact absurd huse1 huse
      · intro _
        unfold FoldUnPaddingCollapseIntoExtract
        rw [hdef]
        simp [huse]

/-- Witness for C7 (amended): the real-merging failure carries the
diagnostic. -/
theorem C7_collapse_into_extract_witness :
    (FoldUnPaddingCollapseIntoExtract exCollapseMerge).1
      = [RAction.notifyMatchFailure MatchDiag.expectedUnpaddingCollapse] :=
  (C7_collapse_into_extract_failures exCollapseMerge).2.1
    (by decide) (by decide) (by decide)

/-- Counterexample to C8 as stated: one successful application of rule 4.4
on the chained-expand insert produces an insert on which the same rule
matches again (the folded expand's source is itself a padding expand), so
the producer pattern is not always fully consumed by a single application. -/
theorem C8_rematch_counterexample :
    (FoldPaddingExpandIntoInsert InsertKind.insertSlice cexInsert).2
      = some { cexInsert with source := cexExpand1 }
    ∧ ((FoldPaddingExpandIntoInsert InsertKind.insertSlice
        { cexInsert with source := cexExpand1 }).2.isSome = true) := by
  decide

/-- C8 (amended): Rules 4.1 and 4.2 can never match again at the operation
they produce, because they produce an ExtractSlice while they root at
ExpandShape / CollapseShape; rules 4.3 and 4.4 never match again at the
produced (or mutated) insert provided the folded reshape's source is not
itself produced by a CollapseShape (4.3) respectively an ExpandShape (4.4). -/
theorem C8_fold_rematch (e : ExpandShapeOp) (c : CollapseShapeOp)
    (k : InsertKind) (i3 i4 : InsertSliceOp) :
    (∀ r, (FoldExpandOfRankReducingExtract e).2 = some r →
      runFoldExpandOfRankReducingExtract (AnyOp.extractSliceOp r) = none)
    ∧ (∀ r, (FoldUnPaddingCollapseIntoExtract c).2 = some r →
      runFoldUnPaddingCollapseIntoExtract (AnyOp.extractSliceOp r) = none)
    ∧ (∀ r, (FoldInsertOfRankReducingInsert k i3).2 = some r →
      getDefiningCollapseShape r.source = none →
      (FoldInsertOfRankReducingInsert k r).2 = none)
    ∧ (∀ r, (FoldPaddingExpandIntoInsert k i4).2 = some r →
      getDefiningExpandShape r.source = none →
      (FoldPaddingExpandIntoInsert k r).2 = none) := by
  refine ⟨fun r _ => rfl, fun r _ => rfl, fun r _ hnone => ?_, fun r _ hnone => ?_⟩
  · unfold FoldInsertOfRankReducingInsert
    rw [hnone]
  · unfold FoldPaddingExpandIntoInsert
    rw [hnone]

/-- Witness for C8 (amended): after folding the single-expand insert of the
C4 example, rule 4.4 does not match again (the new source has no expand
producer). -/
theorem C8_fold_rematch_witness :
    (FoldPaddingExpandIntoInsert InsertKind.insertSlice
      { exInsertOfExpand with
          source := Value.fromElsewhere ⟨[Dim.static 4], 0⟩ 1 }).2 = none :=
  (C8_fold_rematch exExpand414 exCollapseMerge InsertKind.insertSlice
    exInsertOfCollapse exInsertOfExpand).2.2.2
    { exInsertOfExpand with source := Value.fromElsewhere ⟨[Dim.static 4], 0⟩ 1 }
    (by decide) (by decide)

/-- C9: For every rule in the file and every input on which the rule returns
no-match, the operation graph is left exactly as it was: the trace of
rewriter calls contains no creation, replacement or in-place mutation on any
failure path (at most a diagnostic notification). -/
theorem C9_failure_is_atomic :
    (∀ e, (FoldExpandOfRankReducingExtract e).2 = none →
      ((FoldExpandOfRankReducingExtract e).1.filter RAction.isMutation) = [])
    ∧ (∀ c, (FoldUnPaddingCollapseIntoExtract c).2 = none →
      ((FoldUnPaddingCollapseIntoExtract c).1.filter RAction.isMutation) = [])
    ∧ (∀ k i, (FoldInsertOfRankReducingInsert k i).2 = none →
      ((FoldInsertOfRankReducingInsert k i).1.filter RAction.isMutation) = [])
    ∧ (∀ k i, (FoldPaddingExpandIntoInsert k i).2 = none →
      ((FoldPaddingExpandIntoInsert k i).1.filter RAction.isMutation) = [])
    ∧ (∀ e, (BubbleUpExpandThroughParallelCollapse e).2 = none →
      ((BubbleUpExpandThroughParallelCollapse e).1.filter
        RAction.isMutation) = []) := by
  refine ⟨fun e hf => ?_, fun c hf => ?_, fun k i hf => ?_, fun k i hf => ?_,
    fun e hf => ?_⟩
  · unfold FoldExpandOfRankReducingExtract at hf ⊢
    rcases h : getDefiningExtractSlice e.src with _ | x
    · rfl
    · rw [h] at hf
      dsimp only at hf ⊢
      split at hf
      · rw [if_pos (by assumption)]
        decide
      · simp at hf
  · unfold FoldUnPaddingCollapseIntoExtract at hf ⊢
    rcases h : getDefiningExtractSlice c.src with _ | x
    · rfl
    · rw [h] at hf
      dsimp only at hf ⊢
      split at hf
      · rw [if_pos (by assumption)]
        decide
      · split at hf
        · rw [if_neg (by assumption), if_pos (by assumption)]
          decide
        · simp at hf
  · unfold FoldInsertOfRankReducingInsert at hf ⊢
    rcases h : getDefiningCollapseShape i.source with _ | x
    · rfl
    · rw [h] at hf
      dsimp only at hf ⊢
      split at hf
      · rw [if_pos (by assumption)]
        decide
      · simp at hf
  · unfold FoldPaddingExpandIntoInsert at hf ⊢
    rcases h : getDefiningExpandShape i.source with _ | x
    · rfl
    · rw [h] at hf
      dsimp only at hf ⊢
      split at hf
      · rw [if_pos (by assumption)]
        decide
      · simp at hf
  · unfold BubbleUpExpandThroughParallelCollapse at hf ⊢
    rcases h : getDefiningCollapseShape e.src with _ | x
    · rfl
    · rw [h] at hf
      dsimp only at hf ⊢
      split at hf
      · rw [if_pos (by assumption)]
        decide
      · simp at hf

/-- Witness for C9: a concrete no-match input (an expand with no producing
extract) leaves an empty mutation trace. -/
theorem C9_failure_is_atomic_witness :
    ((FoldExpandOfRankReducingExtract
      ⟨Value.fromElsewhere ⟨[Dim.static 4, Dim.static 4], 0⟩ 1, [[0], [1, 2]],
       [OFR.static 4, OFR.static 1, OFR.static 4],
       ⟨[Dim.static 4, Dim.static 1, Dim.static 4], 0⟩⟩).1.filter
        RAction.isMutation) = [] :=
  C9_failure_is_atomic.1 _ (by decide)

/-- C10: Every successful rewrite in the file is type-preserving at its
public boundary: 4.1's new extract has the expand's result type; 4.2's new
extract is built with the collapse's result type; 4.3's new insert keeps the
destination, hence the result type; 4.4's in-place mutation keeps the
destination, hence the result type; and 4.5's new collapse (its type
inferred from the intermediate type and the new reassociation) has, for
well-formed input operations, exactly the original expand's result type. -/
theorem C10_type_preserving_rewrites :
    (∀ e r, (FoldExpandOfRankReducingExtract e).2 = some r →
      r.resultType = e.resultType)
    ∧ (∀ c r, (FoldUnPaddingCollapseIntoExtract c).2 = some r →
      r.resultType = c.resultType)
    ∧ (∀ k i r, (FoldInsertOfRankReducingInsert k i).2 = some r →
      r.destType = i.destType)
    ∧ (∀ k i r, (FoldPaddingExpandIntoInsert k i).2 = some r →
      r.destType = i.destType)
    ∧ (∀ (e : ExpandShapeOp) (c : CollapseShapeOp),
        getDefiningCollapseShape e.src = some c →
        c.reassociation.length = e.reassociation.length →
        (c.reassociation.map List.length).sum = c.src.type.shape.length →
        (e.reassociation.map List.length).sum = e.resultType.shape.length →
        (splitBy (c.reassociation.map List.length) c.src.type.shape).map List.prod
          = c.resultType.shape →
        (splitBy (e.reassociation.map List.length) e.resultType.shape).map List.prod
          = c.resultType.shape →
        e.outputShape.map ofrToDim = e.resultType.shape →
        ∀ ne nc, (BubbleUpExpandThroughParallelCollapse e).2 = some (ne, nc) →
          nc.resultType = e.resultType) := by
  refine ⟨fun e r hf => ?_, fun c r hf => ?_, fun k i r hf => ?_,
    fun k i r hf => ?_, ?_⟩
  · unfold FoldExpandOfRankReducingExtract at hf
    rcases h : getDefiningExtractSlice e.src with _ | x
    · rw [h] at hf
      simp at hf
    · rw [h] at hf
      dsimp only at hf
      split at hf
      · simp at hf
      · rename_i hty
        rw [Decidable.not_not] at hty
        obtain rfl : _ = r := Option.some_inj.mp (by
          simpa using hf)
        exact hty
  · unfold FoldUnPaddingCollapseIntoExtract at hf
    rcases h : getDefiningExtractSlice c.src with _ | x
    · rw [h] at hf
      simp at hf
    · rw [h] at hf
      dsimp only at hf
      split at hf
      · simp at hf
      · split at hf
        · simp at hf
        · obtain rfl : _ = r := Option.some_inj.mp (by simpa using hf)
          rfl
  · unfold FoldInsertOfRankReducingInsert at hf
    rcases h : getDefiningCollapseShape i.source with _ | x
    · rw [h] at hf
      simp at hf
    · rw [h] at hf
      dsimp only at hf
      split at hf
      · simp at hf
      · obtain rfl : _ = r := Option.some_inj.mp (by simpa using hf)
        rfl
  · unfold FoldPaddingExpandIntoInsert at hf
    rcases h : getDefiningExpandShape i.source with _ | x
    · rw [h] at hf
      simp at hf
    · rw [h] at hf
      dsimp only at hf
      split at hf
      · simp at hf
      · obtain rfl : _ = r := Option.some_inj.mp (by simpa using hf)
        rfl
  · intro e c hsrc hlen hsX hsE hcWF heWF hout ne nc hf
    unfold BubbleUpExpandThroughParallelCollapse at hf
    rw [hsrc] at hf
    dsimp only at hf
    split at hf
    · simp at hf
    · rename_i hany
      have hany' : ((e.reassociation.zip c.reassociation).any
          (fun p => decide (p.2.length ≠ 1) && decide (p.1.length ≠ 1))) = false := by
        cases h2 : (e.reassociation.zip c.reassociation).any
            (fun p => decide (p.2.length ≠ 1) && decide (p.1.length ≠ 1))
        · rfl
        · exact absurd h2 hany
      have hpar : ∀ p ∈ c.reassociation.zip e.reassociation,
          p.1.length = 1 ∨ p.2.length = 1 :=
        (zip_any_false_iff e.reassociation c.reassociation hlen.symm).mp hany'
      have hpairs : _ ∧ _ := Prod.mk.injEq .. ▸ Option.some_inj.mp hf
      have hnc : nc = ⟨Value.expandShapeV c.src
          (bubbleLoop c.reassociation e.reassociation
            (getMixedSizes c.src.type.shape) e.outputShape 0).1
          (bubbleLoop c.reassociation e.reassociation
            (getMixedSizes c.src.type.shape) e.outputShape 0).2.2
          ⟨((bubbleLoop c.reassociation e.reassociation
              (getMixedSizes c.src.type.shape) e.outputShape 0).2.2).map ofrToDim,
            e.resultType.elem⟩ 1,
          (bubbleLoop c.reassociation e.reassociation
            (getMixedSizes c.src.type.shape) e.outputShape 0).2.1,
          inferCollapsedType
            ⟨((bubbleLoop c.reassociation e.reassociation
                (getMixedSizes c.src.type.shape) e.outputShape 0).2.2).map ofrToDim,
              e.resultType.elem⟩
            (bubbleLoop c.reassociation e.reassociation
              (getMixedSizes c.src.type.shape) e.outputShape 0).2.1⟩ :=
        hpairs.2.symm
      rw [hnc]
      show inferCollapsedType _ _ = e.resultType
      rw [bubbleLoop_eq]
      dsimp only
      rw [map_sizesStruct, ofrToDim_getMixedSizes, hout]
      have := bubble_type_eq c.reassociation e.reassociation
        c.src.type.shape e.resultType.shape e.resultType.elem hlen hpar hsX hsE
        (hcWF.trans heWF.symm)
      rw [this]

/-- Witness for C10: the bubble-up part applied to the spec's 4.5 example
preserves the expand's result type on the new collapse. -/
theorem C10_type_preserving_witness :
    ∀ ne nc, (BubbleUpExpandThroughParallelCollapse exExpand34).2 = some (ne, nc) →
      nc.resultType = exExpand34.resultType :=
  C10_type_preserving_rewrites.2.2.2.2 exExpand34
    ⟨Value.fromElsewhere ⟨[Dim.static 12], 0⟩ 1, [[0]], ⟨[Dim.static 12], 0⟩⟩
    rfl rfl (by decide) (by decide) (by decide) (by decide) (by decide)

end ReshapePatterns
